import Mathlib

set_option maxRecDepth 8192

/-!
Verification of the search-query conversion module (`src/libs/SearchQueryUtils.ts`)
against its natural-language specification.

The module is shallowly embedded: each TypeScript function becomes a Lean
definition over explicit data.  JavaScript objects used as string-keyed maps
become association lists that preserve insertion order; the in-place
`Array.prototype.sort` performed by the hash routine is modelled by explicit
state passing (`getQueryHashM` returns the hash together with the query as it
is left after the call).  External collaborators (the grammar parser, the
lookup directories, the hashing helper and the fixed key enumerations from the
constants module) are not part of the sources; they are taken as parameters or
modelled from the specification, as marked by doc comments.
-/

/-- Search operators (`CONST.SEARCH.SYNTAX_OPERATORS` values `eq`, `neq`, `lt`,
`lte`, `gt`, `gte`, `and`, `or`; the source compares them as the literal
strings `eq`, `neq`, `lt`, `gt`). -/
inductive Op : Type where
  | eq | neq | lt | lte | gt | gte | andOp | orOp
deriving DecidableEq, Repr

/-- `operatorToCharMap` from the source: the serialization token of each operator. -/
def operatorToCharMap : Op → String
  | .eq => ":"
  | .lt => "<"
  | .lte => "<="
  | .gt => ">"
  | .gte => ">="
  | .neq => "!="
  | .andOp => ","
  | .orOp => " "

/-- `QueryFilter`: one atomic comparison.  Values are modelled as strings
(the source stores `string | number` and serializes via `toString`). -/
structure QueryFilter : Type where
  operator : Op
  value : String
deriving DecidableEq, Repr

/-- A scalar or list right-hand side of an AST node. -/
inductive RightValue : Type where
  | str (s : String)
  | list (l : List String)
deriving DecidableEq, Repr

/-- `ASTNode`: a binary expression node.  `left` is either a filter-key string
or a nested node, `right` is a scalar, a list of scalars, or a nested node;
the four constructors enumerate the four shape combinations.  `op = none`
models a node without an `operator` field. -/
inductive ASTNode : Type where
  | kv (op : Option Op) (key : String) (val : RightValue)
  | kn (op : Option Op) (key : String) (right : ASTNode)
  | nv (op : Option Op) (left : ASTNode) (val : RightValue)
  | nn (op : Option Op) (left : ASTNode) (right : ASTNode)
deriving DecidableEq, Repr

/-- Modelled from the spec: the fixed filter-key enumeration
(`CONST.SEARCH.SYNTAX_FILTER_KEYS`, outside the sources).  Section 3 of the
spec lists the keys in this order: date, amount, merchant, category, tag,
currency, card, tax rate, from, to, in, description, report id, keyword,
expense type. -/
def filterKeysList : List String :=
  ["date", "amount", "merchant", "category", "tag", "currency", "cardID", "taxRate",
   "from", "to", "in", "description", "reportID", "keyword", "expenseType"]

/-- Modelled from the spec: the fixed root-key enumeration
(`CONST.SEARCH.SYNTAX_ROOT_KEYS`, outside the sources), in the order given by
the spec: policyID if present, type, status, sortBy, sortOrder. -/
def rootKeysList : List String :=
  ["policyID", "type", "status", "sortBy", "sortOrder"]

/-- The safe character set of `sanitizeSearchValue`
(the complement of the regexp `[^A-Za-z0-9_@./#&+\-\\';,"]`). -/
def safeChar (c : Char) : Bool :=
  ('A' ≤ c && c ≤ 'Z') || ('a' ≤ c && c ≤ 'z') || ('0' ≤ c && c ≤ '9') ||
    c == '_' || c == '@' || c == '.' || c == '/' || c == '#' || c == '&' ||
    c == '+' || c == '-' || c == '\\' || c == '\'' || c == ';' || c == ',' || c == '"'

/-- `sanitizeSearchValue`: wrap the value in quotes when it contains any
character outside the safe set, otherwise return it unchanged. -/
def sanitizeSearchValue (s : String) : String :=
  if s.data.any (fun c => !safeChar c) then "\"" ++ s ++ "\"" else s

/-- The merge condition of `buildFilterValuesString`: the previous entry
exists and both operators are `eq`, or both are `neq`. -/
def mergeWithPrev (prev : Option Op) (cur : Op) : Bool :=
  match prev with
  | some p => (p == .eq && cur == .eq) || (p == .neq && cur == .neq)
  | none => false

/-- The body of the `forEach` of `buildFilterValuesString`, with the previous
entry's operator (`none` for the first entry) passed along; `index !== 0`
together with the `at(index - 1)` access is equivalent to `prev` being set. -/
def buildFilterValuesStringAux (filterName delim : String) :
    Option Op → List QueryFilter → String
  | _, [] => ""
  | prev, qf :: rest =>
    (if mergeWithPrev prev qf.operator then delim ++ sanitizeSearchValue qf.value
     else if filterName == "keyword" then delim ++ sanitizeSearchValue qf.value
     else " " ++ filterName ++ operatorToCharMap qf.operator ++ sanitizeSearchValue qf.value)
      ++ buildFilterValuesStringAux filterName delim (some qf.operator) rest

/-- `buildFilterValuesString`: render one filter key's fragment. -/
def buildFilterValuesString (filterName : String) (queryFilters : List QueryFilter) : String :=
  buildFilterValuesStringAux filterName (if filterName == "keyword" then " " else ",")
    none queryFilters

/-- Flattened filters: a JavaScript object keyed by filter name, modelled as an
association list preserving key insertion order. -/
abbrev QueryFilters : Type := List (String × List QueryFilter)

/-- Appending one entry to a key's sequence (`filters[key].push(...)`,
creating the key at numeration end when absent, as object insertion does). -/
def pushEntry : QueryFilters → String → QueryFilter → QueryFilters
  | [], k, qf => [(k, [qf])]
  | (k', l) :: rest, k, qf =>
    if k' == k then (k', l ++ [qf]) :: rest else (k', l) :: pushEntry rest k qf

/-- Appending the entries of one right-hand side: a scalar pushes one entry, a
list pushes one entry per element in list order. -/
def pushRightValue (m : QueryFilters) (k : String) (o : Op) : RightValue → QueryFilters
  | .str s => pushEntry m k ⟨o, s⟩
  | .list l => l.foldl (fun mm s => pushEntry mm k ⟨o, s⟩) m

/-- The recursive `traverse` of `getFilters`, threading the filters object.
A node without an operator returns at once; otherwise the node recurses into
`left` when it is a node, then into `right` when it is a non-list node, and
then, when `left` is a recognized filter key, appends its right-hand entries.
When `left` is a recognized key and `right` is a nested node the source pushes
the node object itself as the value (later stringified as an object); this is
rendered by its JavaScript string coercion. -/
def traverseFilters : QueryFilters → ASTNode → QueryFilters
  | m, .kv none _ _ => m
  | m, .kv (some o) k v =>
    if filterKeysList.contains k then pushRightValue m k o v else m
  | m, .kn none _ _ => m
  | m, .kn (some o) k r =>
    let m2 := traverseFilters m r
    if filterKeysList.contains k then pushEntry m2 k ⟨o, "[object Object]"⟩ else m2
  | m, .nv none _ _ => m
  | m, .nv (some _) l _ => traverseFilters m l
  | m, .nn none _ _ => m
  | m, .nn (some _) l r => traverseFilters (traverseFilters m l) r

/-- `getFilters`, as a function of the query's optional AST. -/
def getFilters : Option ASTNode → QueryFilters
  | none => []
  | some a => traverseFilters [] a

/-- Insertion of an element into an already sorted list, before the first
element it is `le`-related to; together with `stableSortLe` this computes the
unique stable sort for the total preorder `le`. -/
def orderedInsertLe (le : α → α → Bool) (a : α) : List α → List α
  | [] => [a]
  | b :: l => if le a b then a :: b :: l else b :: orderedInsertLe le a l

/-- Stable insertion sort: the result of the runtime's stable
`Array.prototype.sort` under the comparator `le` (an element precedes another
exactly when the comparator does not order it strictly after). -/
def stableSortLe (le : α → α → Bool) : List α → List α
  | [] => []
  | a :: l => orderedInsertLe le a (stableSortLe le l)

/-- Strict lexicographic order on character lists, as JavaScript compares
strings: the first differing position decides, a proper prefix is smaller. -/
def charListLt : List Char → List Char → Bool
  | [], [] => false
  | [], _ :: _ => true
  | _ :: _, [] => false
  | a :: as, b :: bs => decide (a < b) || (a == b && charListLt as bs)

/-- JavaScript string comparison `a < b`. -/
def stringLt (a b : String) : Bool :=
  charListLt a.data b.data

/-- `a` is not greater than `b` (the JavaScript comparator result the sort
treats as keeping `a` before `b`). -/
def stringLe (a b : String) : Bool :=
  !stringLt b a

/-- The comparator of `getQueryHash` orders entries by value (`return 1`
exactly when the first value is greater, so an entry precedes another exactly
when its value is not greater). -/
def queryFilterLe (a b : QueryFilter) : Bool :=
  !stringLt b.value a.value

/-- The stable in-place value sort performed by `getQueryHash` on each key's
sequence. -/
def sortQueryFilters (l : List QueryFilter) : List QueryFilter :=
  stableSortLe queryFilterLe l

/-- `Object.keys(...).sort()`: the keys in ascending lexicographic order. -/
def sortKeys (l : List String) : List String :=
  stableSortLe stringLe l

/-- Association-list lookup (`filters[key]`). -/
def lookupFilters : QueryFilters → String → Option (List QueryFilter)
  | [], _ => none
  | (k', l) :: rest, k => if k' == k then some l else lookupFilters rest k

/-- In-place replacement of one key's sequence (the effect of the in-place
`sort` on the array stored under the key). -/
def updateFilters : QueryFilters → String → List QueryFilter → QueryFilters
  | [], _, _ => []
  | (k', l) :: rest, k, v =>
    if k' == k then (k', v) :: rest else (k', l) :: updateFilters rest k v

/-- `SearchQueryJSON`: root fields plus the derived fields. -/
structure SearchQueryJSON : Type where
  type : String
  status : String
  sortBy : String
  sortOrder : String
  policyID : Option String := none
  filters : Option ASTNode := none
  flatFilters : QueryFilters := []
  inputQuery : String := ""
  hash : Nat := 0
deriving DecidableEq, Repr

/-- Modelled from the spec: the external hashing helper (`UserUtils.hashText`
is not among the sources).  Section 4.4: a length-dependent accumulating
string hash — a textbook polynomial rolling hash over code points, reduced
modulo the target range; the exact constants are stated not to be
semantically load-bearing. -/
def hashText (text : String) (range : Nat) : Nat :=
  (text.data.foldl (fun h c => h * 31 + c.toNat) text.length) % range

/-- The root-fields prefix of the canonical hash string: optional
`policyID:value` with a trailing space (skipped for an absent or empty
policyID, which is falsy), then the four fixed root fields. -/
def rootOrderedString (q : SearchQueryJSON) : String :=
  (match q.policyID with
   | some p => if p == "" then "" else "policyID:" ++ p ++ " "
   | none => "")
    ++ "type:" ++ q.type ++ " status:" ++ q.status
    ++ " sortBy:" ++ q.sortBy ++ " sortOrder:" ++ q.sortOrder

/-- One iteration of the key loop of `getQueryHash`: look the key up in the
current filters object, sort its sequence (this sort happens in place, so the
filters object is updated), and append the fragment to the accumulated
string. -/
def getQueryHashStep (st : String × QueryFilters) (key : String) : String × QueryFilters :=
  let sorted := sortQueryFilters ((lookupFilters st.2 key).getD [])
  (st.1 ++ " " ++ buildFilterValuesString key sorted, updateFilters st.2 key sorted)

/-- The key loop of `getQueryHash` over the lexicographically sorted keys,
returning the canonical string and the filters object as left after the
in-place sorts. -/
def getQueryHashRun (q : SearchQueryJSON) : String × QueryFilters :=
  (sortKeys (q.flatFilters.map (·.1))).foldl getQueryHashStep
    (rootOrderedString q, q.flatFilters)

/-- `getQueryHash`, with its side effect made explicit: the returned query is
the argument as it is left after the call (the per-key sequences have been
sorted in place). -/
def getQueryHashM (q : SearchQueryJSON) : Nat × SearchQueryJSON :=
  let run := getQueryHashRun q
  (hashText run.1 (2 ^ 32), { q with flatFilters := run.2 })

/-- The number returned by `getQueryHash`. -/
def getQueryHash (q : SearchQueryJSON) : Nat :=
  (getQueryHashM q).1

/-- The shape of the external grammar parser's successful result:
root fields plus the optional raw AST. -/
structure ParsedQuery : Type where
  type : String
  status : String
  sortBy : String
  sortOrder : String
  policyID : Option String := none
  filters : Option ASTNode := none
deriving Repr

/-- `buildSearchQueryJSON`, parameterized by the external parser (`none`
models a parse error being caught; the facade then reports it and returns no
result).  On success the facade flattens the filters, attaches the original
string and computes the hash (whose in-place sort leaves the attached
`flatFilters` value-sorted per key). -/
def buildSearchQueryJSON (parse : String → Option ParsedQuery) (query : String) :
    Option SearchQueryJSON :=
  match parse query with
  | none => none
  | some r =>
    let q1 : SearchQueryJSON :=
      { type := r.type, status := r.status, sortBy := r.sortBy, sortOrder := r.sortOrder,
        policyID := r.policyID, filters := r.filters,
        flatFilters := getFilters r.filters, inputQuery := query, hash := 0 }
    let run := getQueryHashM q1
    some { run.2 with hash := run.1 }

/-- Field access `queryJSON[key]` for a root key.  (The fallback to
`buildSearchQueryJSON('')` in the source never substitutes for a present
query: the four mandatory fields are always defined, and the default query
has no policyID, so the nullish-coalescing never changes the value.) -/
def rootFieldValue (q : SearchQueryJSON) (k : String) : Option String :=
  if k == "policyID" then q.policyID
  else if k == "type" then some q.type
  else if k == "status" then some q.status
  else if k == "sortBy" then some q.sortBy
  else if k == "sortOrder" then some q.sortOrder
  else none

/-- `buildSearchQueryString` for a present query: push a `key:value` clause
per truthy root field in enumeration order, then per present filter key the
fragment of its sequence, and join the parts with single spaces (the source
performs no trimming). -/
def buildSearchQueryString (q : SearchQueryJSON) : String :=
  let rootParts := rootKeysList.filterMap fun k =>
    match rootFieldValue q k with
    | some v => if v == "" then none else some (k ++ ":" ++ v)
    | none => none
  let filterParts := filterKeysList.filterMap fun k =>
    (lookupFilters q.flatFilters k).map fun l => buildFilterValuesString k l
  String.intercalate " " (rootParts ++ filterParts)

/-- A form field value: a string or a list of strings. -/
inductive FormValue : Type where
  | str (s : String)
  | list (l : List String)
deriving DecidableEq, Repr

/-- `SearchAdvancedFiltersForm`: a JavaScript object from form field names to
values, modelled as an association list preserving insertion order. -/
abbrev FilterForm : Type := List (String × FormValue)

/-- Association-list lookup (`filterValues[key]`). -/
def lookupForm : FilterForm → String → Option FormValue
  | [], _ => none
  | (k', v) :: rest, k => if k' == k then some v else lookupForm rest k

/-- JavaScript string coercion of a form value (arrays join with commas). -/
def formValueString : FormValue → String
  | .str s => s
  | .list l => String.intercalate "," l

/-- JavaScript truthiness of a form value (the empty string is falsy; an
array, even empty, is truthy). -/
def truthyFormValue : FormValue → Bool
  | .str s => !(s == "")
  | .list _ => true

/-- Truthiness of an optional field (absent is falsy). -/
def truthyForm (o : Option FormValue) : Bool :=
  match o with
  | none => false
  | some v => truthyFormValue v

/-- Coercion of an optional field to a string fragment. -/
def formString (o : Option FormValue) : String :=
  match o with
  | none => ""
  | some v => formValueString v

/-- `buildDateFilterQuery`: `date<before`, a separating space only when both
bounds are truthy, then `date>after`. -/
def buildDateFilterQuery (form : FilterForm) : String :=
  let db := lookupForm form "dateBefore"
  let da := lookupForm form "dateAfter"
  (if truthyForm db then "date<" ++ formString db else "")
    ++ (if truthyForm db && truthyForm da then " " else "")
    ++ (if truthyForm da then "date>" ++ formString da else "")

/-- `buildAmountFilterQuery`: `amount>greaterThan`, a separating space only
when both bounds are truthy, then `amount<lessThan`. -/
def buildAmountFilterQuery (form : FilterForm) : String :=
  let lessV := lookupForm form "lessThan"
  let greaterV := lookupForm form "greaterThan"
  (if truthyForm greaterV then "amount>" ++ formString greaterV else "")
    ++ (if truthyForm lessV && truthyForm greaterV then " " else "")
    ++ (if truthyForm lessV then "amount<" ++ formString lessV else "")

/-- `String.prototype.split` on a single separator character: splits at every
occurrence, keeping empty pieces. -/
def splitOnCharAux (sep : Char) : List Char → List Char → List (List Char)
  | [], acc => [acc.reverse]
  | c :: rest, acc =>
    if c == sep then acc.reverse :: splitOnCharAux sep rest []
    else splitOnCharAux sep rest (c :: acc)

/-- `s.split(sep)` as a list of strings. -/
def splitOnChar (sep : Char) (s : String) : List String :=
  (splitOnCharAux sep s.data []).map fun l => String.mk l

/-- Deduplication keeping the first occurrence of each element, with the set
of already seen elements carried along. -/
def firstDedupAux [BEq α] : List α → List α → List α
  | [], _ => []
  | a :: l, seen =>
    if seen.contains a then firstDedupAux l seen else a :: firstDedupAux l (a :: seen)

/-- `new Set(...)` spread back into an array: deduplication keeping the first
occurrence of each element. -/
def firstDedup [BEq α] (l : List α) : List α :=
  firstDedupAux l []

/-- `String.prototype.trim`: remove leading and trailing whitespace. -/
def jsTrim (s : String) : String :=
  String.mk (((s.data.dropWhile Char.isWhitespace).reverse.dropWhile Char.isWhitespace).reverse)

/-- The form keys dispatched to the list-valued branch of
`buildQueryStringFromFilterFormValues`. -/
def listFilterFormKeys : List String :=
  ["category", "cardID", "taxRate", "expenseType", "tag", "currency", "from", "to", "in"]

/-- The per-entry dispatch of `buildQueryStringFromFilterFormValues` over the
non-root form fields: free-text fields emit one `key:sanitized` clause, the
keyword field splits on spaces and sanitizes each token, list-valued fields
deduplicate, sanitize and join with commas; anything else is skipped.  (The
reverse lookup through the syntax-key enumeration is the identity whenever the
form key is a recognized filter key.) -/
def mapFilterFormEntry (e : String × FormValue) : Option String :=
  if (e.1 == "merchant" || e.1 == "description" || e.1 == "reportID")
      && truthyFormValue e.2 then
    if filterKeysList.contains e.1 then
      some (e.1 ++ ":" ++ sanitizeSearchValue (formValueString e.2))
    else none
  else if e.1 == "keyword" && truthyFormValue e.2 then
    some (String.intercalate " "
      ((splitOnChar ' ' (formValueString e.2)).map sanitizeSearchValue))
  else
    match e.2 with
    | .list l =>
      if listFilterFormKeys.contains e.1 && !l.isEmpty then
        if filterKeysList.contains e.1 then
          some (e.1 ++ ":" ++ String.intercalate ","
            ((firstDedup l).map sanitizeSearchValue))
        else none
      else none
    | .str _ => none

/-- `buildQueryStringFromFilterFormValues`: fixed sort defaults, sanitized
type/status/policyID clauses when truthy, the mapped non-root filters, then
the date and amount fragments (each pushed even when empty), joined with
single spaces and trimmed. -/
def buildQueryStringFromFilterFormValues (form : FilterForm) : String :=
  let other := form.filter fun e => !(e.1 == "type" || e.1 == "status" || e.1 == "policyID")
  let typeV := lookupForm form "type"
  let statusV := lookupForm form "status"
  let policyV := lookupForm form "policyID"
  let parts :=
    ["sortBy:date", "sortOrder:desc"]
      ++ (if truthyForm typeV then ["type:" ++ sanitizeSearchValue (formString typeV)] else [])
      ++ (if truthyForm statusV then ["status:" ++ sanitizeSearchValue (formString statusV)] else [])
      ++ (if truthyForm policyV then ["policyID:" ++ sanitizeSearchValue (formString policyV)] else [])
      ++ other.filterMap mapFilterFormEntry
      ++ [buildDateFilterQuery form, buildAmountFilterQuery form]
  jsTrim (String.intercalate " " parts)

/-- `getPolicyIDFromSearchQuery`: no result for an absent or empty (falsy)
policyID, otherwise the first piece of the comma-separated value. -/
def getPolicyIDFromSearchQuery (q : SearchQueryJSON) : Option String :=
  match q.policyID with
  | none => none
  | some p => if p == "" then none else some ((splitOnChar ',' p).headD "")

/-- One entry of the external card directory. -/
structure Card : Type where
  cardID : Nat
  bank : String
deriving DecidableEq, Repr

/-- Generic association-list lookup for external directories. -/
def lookupAssoc [BEq κ] : List (κ × β) → κ → Option β
  | [], _ => none
  | (k', v) :: rest, k => if k' == k then some v else lookupAssoc rest k

/-- `getPersonalDetailByEmail(email)?.accountID.toString() ?? filter`. -/
def resolveEmail (emails : List (String × Nat)) (s : String) : String :=
  match lookupAssoc emails s with
  | some a => toString a
  | none => s

/-- `names.map((name) => taxRates[name] ?? name).flat()`. -/
def taxExpand (taxRates : List (String × List String)) (names : List String) : List String :=
  names.flatMap fun n =>
    match lookupAssoc taxRates n with
    | some ids => ids
    | none => [n]

/-- `findIDFromDisplayValue`, over a scalar-or-list right-hand side, with the
external directories passed as read-only snapshots.  from/to resolve emails to
account identifiers; tax-rate expands names through the directory (always
producing a list, even from a scalar); card replaces a bank name by the
matching card identifiers (a scalar stays a scalar when no card matches, a
list keeps only matching identifiers); every other key passes through. -/
def findIDFromDisplayValue (cards : List Card) (taxRates : List (String × List String))
    (emails : List (String × Nat)) (k : String) (r : RightValue) : RightValue :=
  if k == "from" || k == "to" then
    match r with
    | .str s => .str (resolveEmail emails s)
    | .list l => .list (l.map (resolveEmail emails))
  else if k == "taxRate" then
    match r with
    | .str s => .list (taxExpand taxRates [s])
    | .list l => .list (taxExpand taxRates l)
  else if k == "cardID" then
    match r with
    | .str s =>
      let ids := (cards.filter fun c => c.bank == s).map fun c => toString c.cardID
      if ids.isEmpty then .str s else .list ids
    | .list l =>
      .list (l.flatMap fun b => (cards.filter fun c => c.bank == b).map fun c => toString c.cardID)
  else r

/-- The rewriting traversal of `standardizeQueryJSON` on the (deep-copied)
AST: a node without an operator is returned untouched; otherwise children are
rewritten first and then, when `left` is a string, the right-hand side is
replaced by `findIDFromDisplayValue`.  A string-keyed node whose right side is
a nested node is kept unchanged: for every key other than from/to/tax-rate/
card the source's `findIDFromDisplayValue` returns its argument untouched,
and for those four keys the source faults on a node-shaped value, a case the
idempotence theorem excludes by hypothesis. -/
def standardizeNode (cards : List Card) (taxRates : List (String × List String))
    (emails : List (String × Nat)) : ASTNode → ASTNode
  | .kv none k v => .kv none k v
  | .kv (some o) k v => .kv (some o) k (findIDFromDisplayValue cards taxRates emails k v)
  | .kn none k r => .kn none k r
  | .kn (some o) k r => .kn (some o) k (standardizeNode cards taxRates emails r)
  | .nv none l v => .nv none l v
  | .nv (some o) l v => .nv (some o) (standardizeNode cards taxRates emails l) v
  | .nn none l r => .nn none l r
  | .nn (some o) l r =>
    .nn (some o) (standardizeNode cards taxRates emails l) (standardizeNode cards taxRates emails r)

/-- `standardizeQueryJSON`: deep copy (value semantics), rewrite the AST's
right-hand values to canonical identifiers, and recompute `flatFilters` from
the rewritten AST; every other field is preserved. -/
def standardizeQueryJSON (cards : List Card) (taxRates : List (String × List String))
    (emails : List (String × Nat)) (q : SearchQueryJSON) : SearchQueryJSON :=
  let filters2 := q.filters.map (standardizeNode cards taxRates emails)
  { q with filters := filters2, flatFilters := getFilters filters2 }

/-- The scalar values carried by a right-hand side. -/
def rightValues : RightValue → List String
  | .str s => [s]
  | .list l => l

/-- A right-hand value is canonical for its key when the directories resolve
it to itself: for from/to none of its values is a directory email, for
tax-rate none is a tax-rate name, for card none is a bank name; other keys
are never rewritten. -/
def canonicalValue (cards : List Card) (taxRates : List (String × List String))
    (emails : List (String × Nat)) (k : String) (r : RightValue) : Bool :=
  if k == "from" || k == "to" then
    (rightValues r).all fun s => (lookupAssoc emails s).isNone
  else if k == "taxRate" then
    (rightValues r).all fun s => (lookupAssoc taxRates s).isNone
  else if k == "cardID" then
    (rightValues r).all fun s => cards.all fun c => !(c.bank == s)
  else true

/-- All right-hand values reachable by the standardizing traversal are
canonical, and no rewritable key carries a node-shaped right-hand side. -/
def canonicalNode (cards : List Card) (taxRates : List (String × List String))
    (emails : List (String × Nat)) : ASTNode → Bool
  | .kv none _ _ => true
  | .kv (some _) k v => canonicalValue cards taxRates emails k v
  | .kn none _ _ => true
  | .kn (some _) k r =>
    !(k == "from" || k == "to" || k == "taxRate" || k == "cardID")
      && canonicalNode cards taxRates emails r
  | .nv none _ _ => true
  | .nv (some _) l _ => canonicalNode cards taxRates emails l
  | .nn none _ _ => true
  | .nn (some _) l r =>
    canonicalNode cards taxRates emails l && canonicalNode cards taxRates emails r

/-- A query whose AST right-hand values are all already canonical identifiers. -/
def canonicalQuery (cards : List Card) (taxRates : List (String × List String))
    (emails : List (String × Nat)) (q : SearchQueryJSON) : Bool :=
  match q.filters with
  | none => true
  | some a => canonicalNode cards taxRates emails a

/-- Claim-side rendering of the merge rule of claim C3: an entry is merged
into the preceding clause (appending only the delimiter and the sanitized
value) exactly when it is not the first and both the current and preceding
operators are `eq`, or both are `neq`; otherwise a new
`key op value` clause with a leading space is started. -/
def specClauseRender (filterName : String) : Option Op → List QueryFilter → String
  | _, [] => ""
  | prev, qf :: rest =>
    (if mergeWithPrev prev qf.operator then "," ++ sanitizeSearchValue qf.value
     else " " ++ filterName ++ operatorToCharMap qf.operator ++ sanitizeSearchValue qf.value)
      ++ specClauseRender filterName (some qf.operator) rest

/-- Rendering of the keyword key: every entry contributes a space and its
sanitized value, with no key or operator token. -/
def specKeywordRender : List QueryFilter → String
  | [] => ""
  | qf :: rest => " " ++ sanitizeSearchValue qf.value ++ specKeywordRender rest

/-- Claim-side root clauses of claim C4: one `key:value` clause per truthy
root field, policyID first, then type, status, sortBy, sortOrder. -/
def specRootClauses (q : SearchQueryJSON) : List String :=
  (match q.policyID with
   | some p => if p == "" then [] else ["policyID:" ++ p]
   | none => [])
    ++ (if q.type == "" then [] else ["type:" ++ q.type])
    ++ (if q.status == "" then [] else ["status:" ++ q.status])
    ++ (if q.sortBy == "" then [] else ["sortBy:" ++ q.sortBy])
    ++ (if q.sortOrder == "" then [] else ["sortOrder:" ++ q.sortOrder])

/-- Claim-side filter fragments of claim C4: for each present filter key, in
the fixed filter-key enumeration order, the key's fragment. -/
def specFilterFragments (q : SearchQueryJSON) : List String :=
  (filterKeysList.filter fun k => (lookupFilters q.flatFilters k).isSome).map
    fun k => buildFilterValuesString k ((lookupFilters q.flatFilters k).getD [])

/-- The string carried by a truthy form field, `none` for an absent or falsy
field. -/
def truthyFormString (form : FilterForm) (k : String) : Option String :=
  if truthyForm (lookupForm form k) then some (formString (lookupForm form k)) else none

/-- Claim-side date fragment of claim C5: `date<before` then `date>after`,
space-joined when both bounds are present; an absent bound contributes
nothing. -/
def specDateFragment (before after : Option String) : String :=
  match before, after with
  | some b, some a => "date<" ++ b ++ " date>" ++ a
  | some b, none => "date<" ++ b
  | none, some a => "date>" ++ a
  | none, none => ""

/-- Claim-side amount fragment of claim C5: `amount>greaterThan` then
`amount<lessThan`, space-joined when both bounds are present; an absent bound
contributes nothing. -/
def specAmountFragment (greater less : Option String) : String :=
  match greater, less with
  | some g, some l => "amount>" ++ g ++ " amount<" ++ l
  | some g, none => "amount>" ++ g
  | none, some l => "amount<" ++ l
  | none, none => ""

/-- Claim-side entry collection of claim C9: the (key, entry) pairs produced
by the pre-order traversal — left subtree first, then right subtree when it
is a node, then the current node's own entries when its left side is a
recognized filter key (a scalar right yields one entry, a list right one per
element, in list order); a node without an operator contributes nothing. -/
def collectEntries : ASTNode → List (String × QueryFilter)
  | .kv none _ _ => []
  | .kv (some o) k v =>
    if filterKeysList.contains k then
      match v with
      | .str s => [(k, ⟨o, s⟩)]
      | .list l => l.map fun s => (k, ⟨o, s⟩)
    else []
  | .kn none _ _ => []
  | .kn (some _) _ r => collectEntries r
  | .nv none _ _ => []
  | .nv (some _) l _ => collectEntries l
  | .nn none _ _ => []
  | .nn (some _) l r => collectEntries l ++ collectEntries r

/-- The entries of a flat entry list carried by one key, in order. -/
def entriesAt (k : String) (l : List (String × QueryFilter)) : List QueryFilter :=
  (l.filter fun e => e.1 == k).map (·.2)

/-- Claim-side grouping of claim C9: keys in first-encounter order, each
mapped to its entries in encounter order. -/
def groupEntries (l : List (String × QueryFilter)) : QueryFilters :=
  (firstDedup (l.map (·.1))).map fun k => (k, entriesAt k l)

/-- Folding a flat entry list into a filters object by successive appends. -/
def foldPushEntries (m : QueryFilters) (l : List (String × QueryFilter)) : QueryFilters :=
  l.foldl (fun mm e => pushEntry mm e.1 e.2) m

/-- The well-formedness invariant of the data model (spec section 3): a node
whose left side is a recognized filter key carries a scalar or list right-hand
side, never a nested node. -/
def wfNode : ASTNode → Bool
  | .kv _ _ _ => true
  | .kn _ k r => !filterKeysList.contains k && wfNode r
  | .nv _ l _ => wfNode l
  | .nn _ l r => wfNode l && wfNode r

/-- The in-place effect of one iteration of the hash loop on the filters
object: the key's sequence is replaced by its value-sorted permutation. -/
def updateSortStep (g : QueryFilters) (k : String) : QueryFilters :=
  updateFilters g k (sortQueryFilters ((lookupFilters g k).getD []))

/-- The canonical-string contribution of the hash loop, read off a fixed
filters object. -/
def hashFragmentFold (f : QueryFilters) (acc : String) (k : String) : String :=
  acc ++ " " ++ buildFilterValuesString k (sortQueryFilters ((lookupFilters f k).getD []))

/-- The prefix of a string before its first comma (the whole string when it
has no comma). -/
def beforeFirstComma (s : String) : String :=
  String.mk (s.data.takeWhile fun c => !(c == ','))

/-- Whether a character list contains two consecutive spaces. -/
def hasDoubleSpaceList : List Char → Bool
  | c1 :: c2 :: rest => (c1 == ' ' && c2 == ' ') || hasDoubleSpaceList (c2 :: rest)
  | _ => false

/-- Whether a string contains a run of two consecutive spaces. -/
def hasDoubleSpace (s : String) : Bool :=
  hasDoubleSpaceList s.data

/-! ### General lemmas: the lexicographic order and the stable sort -/

theorem charListLt_irrefl (l : List Char) : charListLt l l = false := by
  induction l with
  | nil => rfl
  | cons a l ih => simp [charListLt, ih]

theorem charListLt_trans {l1 l2 l3 : List Char} (h1 : charListLt l1 l2 = true)
    (h2 : charListLt l2 l3 = true) : charListLt l1 l3 = true := by
  induction l1 generalizing l2 l3 with
  | nil =>
    cases l2 with
    | nil => simp [charListLt] at h1
    | cons b bs =>
      cases l3 with
      | nil => simp [charListLt] at h2
      | cons c cs => simp [charListLt]
  | cons a as ih =>
    cases l2 with
    | nil => simp [charListLt] at h1
    | cons b bs =>
      cases l3 with
      | nil => simp [charListLt] at h2
      | cons c cs =>
        simp only [charListLt, Bool.or_eq_true, Bool.and_eq_true, decide_eq_true_eq,
          beq_iff_eq] at h1 h2 ⊢
        rcases h1 with h1 | ⟨rfl, h1⟩
        · rcases h2 with h2 | ⟨rfl, h2⟩
          · exact Or.inl (lt_trans h1 h2)
          · exact Or.inl h1
        · rcases h2 with h2 | ⟨rfl, h2⟩
          · exact Or.inl h2
          · exact Or.inr ⟨rfl, ih h1 h2⟩

theorem charListLt_connex {l1 l2 : List Char} (h1 : charListLt l1 l2 = false)
    (h2 : charListLt l2 l1 = false) : l1 = l2 := by
  induction l1 generalizing l2 with
  | nil =>
    cases l2 with
    | nil => rfl
    | cons b bs => simp [charListLt] at h1
  | cons a as ih =>
    cases l2 with
    | nil => simp [charListLt] at h2
    | cons b bs =>
      simp only [charListLt, Bool.or_eq_false_iff, Bool.and_eq_false_iff,
        decide_eq_false_iff_not, beq_eq_false_iff_ne, ne_eq] at h1 h2
      have hab : a = b := le_antisymm (not_lt.mp h2.1) (not_lt.mp h1.1)
      subst hab
      rcases h1.2 with h1' | h1'
      · exact absurd rfl h1'
      · rcases h2.2 with h2' | h2'
        · exact absurd rfl h2'
        · exact congrArg (a :: ·) (ih h1' h2')

theorem charListLt_asymm {l1 l2 : List Char} (h : charListLt l1 l2 = true) :
    charListLt l2 l1 = false := by
  by_contra hc
  have h2 : charListLt l2 l1 = true := by
    cases hval : charListLt l2 l1 with
    | false => exact absurd hval hc
    | true => rfl
  have := charListLt_trans h h2
  rw [charListLt_irrefl] at this
  exact Bool.noConfusion this

theorem stringLe_total (a b : String) : stringLe a b = true ∨ stringLe b a = true := by
  by_cases h : charListLt b.data a.data = true
  · right
    simp [stringLe, stringLt, charListLt_asymm h]
  · left
    simp only [stringLe, stringLt, Bool.not_eq_true']
    exact Bool.not_eq_true _ ▸ (Bool.eq_false_iff.mpr fun hh => h hh)

theorem stringLe_trans {a b c : String} (h1 : stringLe a b = true) (h2 : stringLe b c = true) :
    stringLe a c = true := by
  simp only [stringLe, stringLt, Bool.not_eq_true'] at h1 h2 ⊢
  by_contra hc
  have hca : charListLt c.data a.data = true := by
    cases hval : charListLt c.data a.data with
    | false => exact absurd (by simp [hval]) hc
    | true => rfl
  cases hbc : charListLt b.data c.data with
  | true => exact Bool.noConfusion (h1 ▸ charListLt_trans hbc hca)
  | false =>
    have : b.data = c.data := charListLt_connex hbc h2
    rw [this] at h1
    exact Bool.noConfusion (h1 ▸ hca)

theorem string_ext {a b : String} (h : a.data = b.data) : a = b := by
  cases a with
  | mk d1 =>
    cases b with
    | mk d2 => exact congrArg String.mk h

theorem stringLe_antisymm {a b : String} (h1 : stringLe a b = true) (h2 : stringLe b a = true) :
    a = b := by
  simp only [stringLe, stringLt, Bool.not_eq_true'] at h1 h2
  exact string_ext (charListLt_connex h2 h1)

theorem queryFilterLe_total (a b : QueryFilter) :
    queryFilterLe a b = true ∨ queryFilterLe b a = true :=
  stringLe_total a.value b.value

theorem queryFilterLe_trans {a b c : QueryFilter} (h1 : queryFilterLe a b = true)
    (h2 : queryFilterLe b c = true) : queryFilterLe a c = true :=
  stringLe_trans (a := a.value) (b := b.value) (c := c.value) h1 h2

theorem queryFilterLe_value_eq {a b : QueryFilter} (h1 : queryFilterLe a b = true)
    (h2 : queryFilterLe b a = true) : a.value = b.value :=
  stringLe_antisymm (a := a.value) (b := b.value) h1 h2

theorem orderedInsertLe_perm (le : α → α → Bool) (a : α) (l : List α) :
    (orderedInsertLe le a l).Perm (a :: l) := by
  induction l with
  | nil => exact List.Perm.refl _
  | cons b l ih =>
    simp only [orderedInsertLe]
    by_cases h : le a b = true
    · rw [if_pos h]
    · rw [if_neg h]
      exact List.Perm.trans (ih.cons b) (List.Perm.swap a b l)

theorem stableSortLe_perm (le : α → α → Bool) (l : List α) :
    (stableSortLe le l).Perm l := by
  induction l with
  | nil => exact List.Perm.refl _
  | cons a l ih =>
    exact List.Perm.trans (orderedInsertLe_perm le a (stableSortLe le l)) (ih.cons a)

theorem mem_orderedInsertLe {le : α → α → Bool} {a x : α} {l : List α}
    (h : x ∈ orderedInsertLe le a l) : x = a ∨ x ∈ l := by
  have := (orderedInsertLe_perm le a l).mem_iff.mp h
  simpa using this

theorem orderedInsertLe_pairwise {le : α → α → Bool}
    (htot : ∀ a b, le a b = true ∨ le b a = true)
    (htrans : ∀ a b c, le a b = true → le b c = true → le a c = true)
    (a : α) {l : List α} (hl : l.Pairwise fun x y => le x y = true) :
    (orderedInsertLe le a l).Pairwise fun x y => le x y = true := by
  induction l with
  | nil => simp [orderedInsertLe]
  | cons b l ih =>
    rcases List.pairwise_cons.mp hl with ⟨hb, hl'⟩
    simp only [orderedInsertLe]
    by_cases h : le a b = true
    · rw [if_pos h]
      refine List.pairwise_cons.mpr ⟨?_, hl⟩
      intro x hx
      rcases List.mem_cons.mp hx with rfl | hx
      · exact h
      · exact htrans a b x h (hb x hx)
    · rw [if_neg h]
      refine List.pairwise_cons.mpr ⟨?_, ih hl'⟩
      intro x hx
      rcases mem_orderedInsertLe hx with rfl | hx
      · rcases htot x b with ha | ha
        · exact absurd ha h
        · exact ha
      · exact hb x hx

theorem stableSortLe_pairwise {le : α → α → Bool}
    (htot : ∀ a b, le a b = true ∨ le b a = true)
    (htrans : ∀ a b c, le a b = true → le b c = true → le a c = true)
    (l : List α) : (stableSortLe le l).Pairwise fun x y => le x y = true := by
  induction l with
  | nil => simp [stableSortLe]
  | cons a l ih => exact orderedInsertLe_pairwise htot htrans a ih

theorem sorted_perm_unique {le : α → α → Bool} :
    ∀ {l1 l2 : List α},
      (∀ a ∈ l1, ∀ b ∈ l1, le a b = true → le b a = true → a = b) →
      l1.Perm l2 → (l1.Pairwise fun x y => le x y = true) →
      (l2.Pairwise fun x y => le x y = true) → l1 = l2 := by
  intro l1
  induction l1 with
  | nil =>
    intro l2 _ hp _ _
    exact hp.nil_eq
  | cons a t1 ih =>
    intro l2 hanti hp h1 h2
    cases l2 with
    | nil => exact absurd hp.symm.nil_eq (by simp)
    | cons b t2 =>
      have hab : a = b := by
        have hamem : a ∈ b :: t2 := hp.mem_iff.mp (List.mem_cons_self a t1)
        rcases List.mem_cons.mp hamem with h | h
        · exact h
        · have hba : le b a = true := (List.pairwise_cons.mp h2).1 a h
          have hbmem : b ∈ a :: t1 := hp.symm.mem_iff.mp (List.mem_cons_self b t2)
          rcases List.mem_cons.mp hbmem with h' | h'
          · exact h'.symm
          · have hab' : le a b = true := (List.pairwise_cons.mp h1).1 b h'
            exact hanti a (List.mem_cons_self a t1) b (List.mem_cons_of_mem a h') hab' hba
      subst hab
      have ht : t1.Perm t2 := hp.cons_inv
      have : t1 = t2 :=
        ih (fun x hx y hy => hanti x (List.mem_cons_of_mem a hx) y (List.mem_cons_of_mem a hy))
          ht (List.pairwise_cons.mp h1).2 (List.pairwise_cons.mp h2).2
      rw [this]

/-! ### General lemmas: association lists -/

theorem lookupFilters_eq_none {m : QueryFilters} {k : String}
    (h : k ∉ m.map (·.1)) : lookupFilters m k = none := by
  induction m with
  | nil => rfl
  | cons e rest ih =>
    obtain ⟨k', l⟩ := e
    simp only [List.map_cons, List.mem_cons] at h
    push_neg at h
    simp only [lookupFilters]
    rw [if_neg (by simp [beq_false_of_ne (Ne.symm h.1)])]
    exact ih h.2

theorem lookupFilters_isSome_of_mem {m : QueryFilters} {k : String}
    (h : k ∈ m.map (·.1)) : ∃ l, lookupFilters m k = some l := by
  induction m with
  | nil => simp at h
  | cons e rest ih =>
    obtain ⟨k', l⟩ := e
    simp only [List.map_cons, List.mem_cons] at h
    simp only [lookupFilters]
    by_cases hk : (k' == k) = true
    · exact ⟨l, if_pos hk ▸ rfl⟩
    · rw [if_neg hk]
      rcases h with rfl | h
      · exact absurd (beq_self_eq_true k) hk
      · exact ih h

theorem updateFilters_map_fst (m : QueryFilters) (k : String) (v : List QueryFilter) :
    (updateFilters m k v).map (·.1) = m.map (·.1) := by
  induction m with
  | nil => rfl
  | cons e rest ih =>
    obtain ⟨k', l⟩ := e
    simp only [updateFilters]
    by_cases hk : (k' == k) = true
    · rw [if_pos hk]
      simp
    · rw [if_neg hk]
      simp [ih]

theorem lookup_updateFilters_self (m : QueryFilters) (k : String) (v : List QueryFilter) :
    lookupFilters (updateFilters m k v) k = (lookupFilters m k).map fun _ => v := by
  induction m with
  | nil => rfl
  | cons e rest ih =>
    obtain ⟨k', l⟩ := e
    simp only [updateFilters, lookupFilters]
    by_cases hk : (k' == k) = true
    · rw [if_pos hk]
      simp only [lookupFilters]
      rw [if_pos hk, if_pos hk]
      rfl
    · rw [if_neg hk]
      simp only [lookupFilters]
      rw [if_neg hk, if_neg hk]
      exact ih

theorem lookup_updateFilters_other (m : QueryFilters) {k k' : String}
    (v : List QueryFilter) (h : k' ≠ k) :
    lookupFilters (updateFilters m k v) k' = lookupFilters m k' := by
  induction m with
  | nil => rfl
  | cons e rest ih =>
    obtain ⟨k0, l⟩ := e
    simp only [updateFilters, lookupFilters]
    by_cases hk : (k0 == k) = true
    · rw [if_pos hk]
      simp only [lookupFilters]
      have : (k0 == k') = false := by
        have hk0 : k0 = k := by simpa using hk
        subst hk0
        exact beq_false_of_ne (Ne.symm h)
      rw [if_neg (by simp [this]), if_neg (by simp [this])]
    · rw [if_neg hk]
      simp only [lookupFilters]
      by_cases hk' : (k0 == k') = true
      · rw [if_pos hk', if_pos hk']
      · rw [if_neg hk', if_neg hk']
        exact ih

theorem lookup_map_values (m : QueryFilters) (f : List QueryFilter → List QueryFilter)
    (k : String) :
    lookupFilters (m.map fun e => (e.1, f e.2)) k = (lookupFilters m k).map f := by
  induction m with
  | nil => rfl
  | cons e rest ih =>
    obtain ⟨k', l⟩ := e
    simp only [List.map_cons, lookupFilters]
    by_cases hk : (k' == k) = true
    · rw [if_pos hk, if_pos hk]
      rfl
    · rw [if_neg hk, if_neg hk]
      exact ih

theorem assoc_ext : ∀ {m1 m2 : QueryFilters},
    m1.map (·.1) = m2.map (·.1) → (m1.map (·.1)).Nodup →
    (∀ k, lookupFilters m1 k = lookupFilters m2 k) → m1 = m2 := by
  intro m1
  induction m1 with
  | nil =>
    intro m2 hkeys _ _
    cases m2 with
    | nil => rfl
    | cons e rest => simp at hkeys
  | cons e1 rest1 ih =>
    intro m2 hkeys hnd hlook
    obtain ⟨k1, v1⟩ := e1
    cases m2 with
    | nil => simp at hkeys
    | cons e2 rest2 =>
      obtain ⟨k2, v2⟩ := e2
      simp only [List.map_cons, List.cons.injEq] at hkeys
      obtain ⟨hk12, hkeys'⟩ := hkeys
      subst hk12
      have hv12 : v1 = v2 := by
        have := hlook k1
        simp only [lookupFilters, if_pos (beq_self_eq_true k1)] at this
        exact Option.some.injEq _ _ ▸ (by simpa using this)
      subst hv12
      simp only [List.map_cons] at hnd
      have hnd' := List.nodup_cons.mp hnd
      have : rest1 = rest2 := by
        refine ih hkeys' hnd'.2 fun k => ?_
        by_cases hk : k = k1
        · subst hk
          have h1 : lookupFilters rest1 k = none :=
            lookupFilters_eq_none (by exact hnd'.1)
          have h2 : lookupFilters rest2 k = none :=
            lookupFilters_eq_none (by rw [← hkeys']; exact hnd'.1)
          rw [h1, h2]
        · have := hlook k
          simp only [lookupFilters] at this
          rw [if_neg (by simpa using Ne.symm hk), if_neg (by simpa using Ne.symm hk)] at this
          exact this
      rw [this]

/-! ### The hash loop: string and state characterization -/

theorem foldl_congr_mem {g1 g2 : β → α → β} :
    ∀ (l : List α) (s : β), (∀ acc a, a ∈ l → g1 acc a = g2 acc a) →
      l.foldl g1 s = l.foldl g2 s := by
  intro l
  induction l with
  | nil => intro s _; rfl
  | cons a l ih =>
    intro s h
    simp only [List.foldl_cons]
    rw [h s a (List.mem_cons_self a l)]
    exact ih _ fun acc b hb => h acc b (List.mem_cons_of_mem a hb)

theorem getQueryHashRun_snd_eq : ∀ (ks : List String) (s : String) (f : QueryFilters),
    (ks.foldl getQueryHashStep (s, f)).2 = ks.foldl updateSortStep f := by
  intro ks
  induction ks with
  | nil => intro s f; rfl
  | cons k ks ih =>
    intro s f
    simp only [List.foldl_cons]
    exact ih _ _

theorem getQueryHashRun_fst_eq : ∀ (ks : List String), ks.Nodup →
    ∀ (s : String) (f : QueryFilters),
      (ks.foldl getQueryHashStep (s, f)).1 = ks.foldl (hashFragmentFold f) s := by
  intro ks
  induction ks with
  | nil => intro _ s f; rfl
  | cons k ks ih =>
    intro hnd s f
    have hnd' := List.nodup_cons.mp hnd
    simp only [List.foldl_cons]
    rw [ih hnd'.2 _ _]
    refine foldl_congr_mem ks _ fun acc a ha => ?_
    have hak : a ≠ k := fun h => hnd'.1 (h ▸ ha)
    simp only [hashFragmentFold, getQueryHashStep, updateSortStep]
    rw [lookup_updateFilters_other _ _ hak]

theorem lookup_foldl_updateSort : ∀ (ks : List String), ks.Nodup →
    ∀ (f : QueryFilters) (k : String),
      lookupFilters (ks.foldl updateSortStep f) k =
        if k ∈ ks then (lookupFilters f k).map sortQueryFilters else lookupFilters f k := by
  intro ks
  induction ks with
  | nil =>
    intro _ f k
    simp
  | cons k0 ks ih =>
    intro hnd f k
    have hnd' := List.nodup_cons.mp hnd
    simp only [List.foldl_cons]
    rw [ih hnd'.2 _ _]
    by_cases hks : k ∈ ks
    · have hk0 : k ≠ k0 := fun h => hnd'.1 (h ▸ hks)
      rw [if_pos hks, if_pos (List.mem_cons_of_mem k0 hks)]
      simp only [updateSortStep]
      rw [lookup_updateFilters_other _ _ hk0]
    · rw [if_neg hks]
      by_cases hk : k = k0
      · subst hk
        rw [if_pos (List.mem_cons_self k ks)]
        simp only [updateSortStep]
        rw [lookup_updateFilters_self]
        cases h : lookupFilters f k with
        | none => simp
        | some l => simp [h]
      · rw [if_neg (by simp [hk, hks])]
        simp only [updateSortStep]
        exact lookup_updateFilters_other _ _ hk

theorem foldl_updateSort_map_fst : ∀ (ks : List String) (f : QueryFilters),
    (ks.foldl updateSortStep f).map (·.1) = f.map (·.1) := by
  intro ks
  induction ks with
  | nil => intro f; rfl
  | cons k ks ih =>
    intro f
    simp only [List.foldl_cons]
    rw [ih, updateSortStep, updateFilters_map_fst]

theorem foldl_updateSort_eq_map (ks : List String) (f : QueryFilters)
    (hperm : ks.Perm (f.map (·.1))) (hnd : (f.map (·.1)).Nodup) :
    ks.foldl updateSortStep f = f.map fun e => (e.1, sortQueryFilters e.2) := by
  have hndks : ks.Nodup := (hperm.nodup_iff).mpr hnd
  refine assoc_ext ?_ ?_ fun k => ?_
  · rw [foldl_updateSort_map_fst]
    have : (f.map fun e => (e.1, sortQueryFilters e.2)).map (·.1) = f.map (·.1) := by
      simp
    rw [this]
  · rw [foldl_updateSort_map_fst]; exact hnd
  · rw [lookup_foldl_updateSort ks hndks, lookup_map_values]
    by_cases hk : k ∈ ks
    · rw [if_pos hk]
    · rw [if_neg hk]
      have hk' : k ∉ f.map (·.1) := fun h => hk (hperm.mem_iff.mpr h)
      rw [lookupFilters_eq_none hk']
      rfl

/-! ### The flattener: traversal as grouping of collected entries -/

theorem mem_firstDedupAux [BEq α] [LawfulBEq α] {a : α} :
    ∀ {l seen : List α}, a ∈ firstDedupAux l seen ↔ a ∈ l ∧ a ∉ seen := by
  intro l
  induction l with
  | nil => intro seen; simp [firstDedupAux]
  | cons b l ih =>
    intro seen
    by_cases hc : seen.contains b = true
    · have hb : b ∈ seen := by simpa using hc
      rw [firstDedupAux, if_pos hc]
      rw [ih]
      simp only [List.mem_cons]
      constructor
      · rintro ⟨h1, h2⟩
        exact ⟨Or.inr h1, h2⟩
      · rintro ⟨h1, h2⟩
        rcases h1 with rfl | h1
        · exact absurd hb h2
        · exact ⟨h1, h2⟩
    · have hb : b ∉ seen := by simpa using hc
      rw [firstDedupAux, if_neg hc]
      simp only [List.mem_cons, ih]
      constructor
      · rintro (rfl | ⟨h1, h2⟩)
        · exact ⟨Or.inl rfl, hb⟩
        · push_neg at h2
          exact ⟨Or.inr h1, h2.2⟩
      · rintro ⟨h1, h2⟩
        rcases h1 with rfl | h1
        · exact Or.inl rfl
        · by_cases hab : a = b
          · exact Or.inl hab
          · refine Or.inr ⟨h1, ?_⟩
            push_neg
            exact ⟨hab, h2⟩

theorem nodup_firstDedupAux [BEq α] [LawfulBEq α] :
    ∀ (l seen : List α), (firstDedupAux l seen).Nodup := by
  intro l
  induction l with
  | nil => intro seen; exact List.nodup_nil
  | cons b l ih =>
    intro seen
    by_cases hc : seen.contains b = true
    · rw [firstDedupAux, if_pos hc]
      exact ih seen
    · rw [firstDedupAux, if_neg hc]
      refine List.nodup_cons.mpr ⟨?_, ih (b :: seen)⟩
      intro hmem
      have := (mem_firstDedupAux.mp hmem).2
      exact this (List.mem_cons_self b seen)

theorem mem_firstDedup [BEq α] [LawfulBEq α] {a : α} {l : List α} :
    a ∈ firstDedup l ↔ a ∈ l := by
  rw [firstDedup, mem_firstDedupAux]
  simp

theorem nodup_firstDedup [BEq α] [LawfulBEq α] (l : List α) : (firstDedup l).Nodup :=
  nodup_firstDedupAux l []

theorem firstDedupAux_append [BEq α] [LawfulBEq α] {k : α} :
    ∀ (xs seen : List α), firstDedupAux (xs ++ [k]) seen =
      firstDedupAux xs seen ++ (if k ∈ seen ∨ k ∈ xs then [] else [k]) := by
  intro xs
  induction xs with
  | nil =>
    intro seen
    by_cases hc : seen.contains k = true
    · have hk : k ∈ seen := by simpa using hc
      simp only [List.nil_append, firstDedupAux, if_pos hc, List.append_eq]
      rw [if_pos (Or.inl hk)]
    · have hk : k ∉ seen := by simpa using hc
      simp only [List.nil_append, firstDedupAux, if_neg hc, List.append_eq]
      rw [if_neg (by simp [hk])]
  | cons a xs ih =>
    intro seen
    by_cases hc : seen.contains a = true
    · have ha : a ∈ seen := by simpa using hc
      simp only [List.cons_append, firstDedupAux, if_pos hc, List.append_eq]
      rw [ih]
      refine congrArg (firstDedupAux xs seen ++ ·) (if_congr ?_ rfl rfl)
      constructor
      · rintro (h | h)
        · exact Or.inl h
        · exact Or.inr (List.mem_cons_of_mem a h)
      · rintro (h | h)
        · exact Or.inl h
        · rcases List.mem_cons.mp h with rfl | h
          · exact Or.inl ha
          · exact Or.inr h
    · simp only [List.cons_append, firstDedupAux, if_neg hc, List.append_eq]
      rw [ih]
      refine congrArg (a :: ·) (congrArg (firstDedupAux xs (a :: seen) ++ ·) (if_congr ?_ rfl rfl))
      constructor
      · rintro (h | h)
        · rcases List.mem_cons.mp h with rfl | h
          · exact Or.inr (List.mem_cons_self k xs)
          · exact Or.inl h
        · exact Or.inr (List.mem_cons_of_mem a h)
      · rintro (h | h)
        · exact Or.inl (List.mem_cons_of_mem a h)
        · rcases List.mem_cons.mp h with rfl | h
          · exact Or.inl (List.mem_cons_self k seen)
          · exact Or.inr h

theorem firstDedup_append [BEq α] [LawfulBEq α] (xs : List α) (k : α) :
    firstDedup (xs ++ [k]) =
      if k ∈ xs then firstDedup xs else firstDedup xs ++ [k] := by
  rw [firstDedup, firstDedupAux_append]
  by_cases hk : k ∈ xs
  · rw [if_pos (by simp [hk]), if_pos hk, List.append_nil]
    rfl
  · rw [if_neg (by simp [hk]), if_neg hk]
    rfl

theorem entriesAt_append_single (k' k : String) (qf : QueryFilter)
    (l : List (String × QueryFilter)) :
    entriesAt k' (l ++ [(k, qf)]) =
      entriesAt k' l ++ (if k' = k then [qf] else []) := by
  simp only [entriesAt, List.filter_append]
  by_cases hk : k' = k
  · subst hk
    rw [if_pos rfl]
    simp [List.filter]
  · rw [if_neg hk]
    have : ((k, qf).1 == k') = false := beq_eq_false_iff_ne.mpr (Ne.symm hk)
    simp [List.filter, this]

theorem entriesAt_eq_nil {k : String} {l : List (String × QueryFilter)}
    (h : k ∉ l.map (·.1)) : entriesAt k l = [] := by
  simp only [entriesAt, List.map_eq_nil_iff]
  refine List.filter_eq_nil_iff.mpr fun e he => ?_
  have : e.1 ≠ k := fun hh => h (hh ▸ List.mem_map_of_mem (·.1) he)
  simp [this]

theorem pushEntry_keylist_mem :
    ∀ (ks : List String) (g : String → List QueryFilter) (k : String) (qf : QueryFilter),
      ks.Nodup → k ∈ ks →
      pushEntry (ks.map fun k' => (k', g k')) k qf =
        ks.map fun k' => (k', g k' ++ if k' = k then [qf] else []) := by
  intro ks
  induction ks with
  | nil => intro g k qf _ hk; simp at hk
  | cons a ks ih =>
    intro g k qf hnd hk
    have hnd' := List.nodup_cons.mp hnd
    by_cases hak : a = k
    · subst hak
      simp only [List.map_cons, pushEntry, if_pos (beq_self_eq_true a), if_pos rfl]
      refine congrArg ((a, g a ++ [qf]) :: ·) ?_
      refine (List.map_congr_left fun k' hk' => ?_).symm
      have : k' ≠ a := fun hh => hnd'.1 (hh ▸ hk')
      rw [if_neg this, List.append_nil]
    · simp only [List.map_cons, pushEntry]
      rw [if_neg (by simp [beq_eq_false_iff_ne.mpr hak])]
      rw [if_neg hak, List.append_nil]
      refine congrArg ((a, g a) :: ·) ?_
      rcases List.mem_cons.mp hk with rfl | hk'
      · exact absurd rfl hak
      · exact ih g k qf hnd'.2 hk'

theorem pushEntry_keylist_not_mem :
    ∀ (ks : List String) (g : String → List QueryFilter) (k : String) (qf : QueryFilter),
      k ∉ ks →
      pushEntry (ks.map fun k' => (k', g k')) k qf =
        (ks.map fun k' => (k', g k')) ++ [(k, [qf])] := by
  intro ks
  induction ks with
  | nil => intro g k qf _; rfl
  | cons a ks ih =>
    intro g k qf hk
    have hak : a ≠ k := fun hh => hk (hh ▸ List.mem_cons_self a ks)
    simp only [List.map_cons, pushEntry, List.cons_append]
    rw [if_neg (by simp [beq_eq_false_iff_ne.mpr hak])]
    refine congrArg ((a, g a) :: ·) ?_
    exact ih g k qf fun hh => hk (List.mem_cons_of_mem a hh)

theorem groupEntries_append (l : List (String × QueryFilter)) (k : String) (qf : QueryFilter) :
    groupEntries (l ++ [(k, qf)]) = pushEntry (groupEntries l) k qf := by
  simp only [groupEntries, List.map_append, List.map_cons, List.map_nil]
  rw [firstDedup_append]
  by_cases hk : k ∈ l.map (·.1)
  · rw [if_pos hk]
    have hmem : k ∈ firstDedup (l.map (·.1)) := mem_firstDedup.mpr hk
    rw [pushEntry_keylist_mem _ _ _ _ (nodup_firstDedup _) hmem]
    refine List.map_congr_left fun k' _ => ?_
    rw [entriesAt_append_single]
  · rw [if_neg hk]
    rw [List.map_append, List.map_cons]
    rw [pushEntry_keylist_not_mem _ _ _ _ (fun hh => hk (mem_firstDedup.mp hh))]
    refine congrArg₂ (· ++ ·) ?_ ?_
    · refine List.map_congr_left fun k' hk' => ?_
      have : k' ≠ k := fun hh => hk (hh ▸ mem_firstDedup.mp hk')
      rw [entriesAt_append_single, if_neg this, List.append_nil]
    · simp only [List.map_nil]
      rw [entriesAt_append_single, entriesAt_eq_nil hk, if_pos rfl, List.nil_append]

theorem foldPushEntries_append (m : QueryFilters) (l1 l2 : List (String × QueryFilter)) :
    foldPushEntries m (l1 ++ l2) = foldPushEntries (foldPushEntries m l1) l2 := by
  simp [foldPushEntries, List.foldl_append]

theorem foldPushEntries_group (l : List (String × QueryFilter)) :
    foldPushEntries [] l = groupEntries l := by
  induction l using List.reverseRecOn with
  | nil => rfl
  | append_singleton l e ih =>
    obtain ⟨k, qf⟩ := e
    rw [foldPushEntries_append, ih, groupEntries_append]
    rfl

theorem pushRightValue_eq_foldPush (m : QueryFilters) (k : String) (o : Op) (v : RightValue) :
    pushRightValue m k o v =
      foldPushEntries m
        (match v with
         | .str s => [(k, ⟨o, s⟩)]
         | .list l => l.map fun s => (k, ⟨o, s⟩)) := by
  cases v with
  | str s => rfl
  | list l =>
    simp only [pushRightValue, foldPushEntries, List.foldl_map]

theorem traverseFilters_eq_foldPush :
    ∀ (a : ASTNode), wfNode a = true →
      ∀ (m : QueryFilters), traverseFilters m a = foldPushEntries m (collectEntries a) := by
  intro a
  induction a with
  | kv op k v =>
    intro _ m
    cases op with
    | none => rfl
    | some o =>
      simp only [traverseFilters, collectEntries]
      by_cases hk : filterKeysList.contains k = true
      · rw [if_pos hk, if_pos hk, pushRightValue_eq_foldPush]
      · rw [if_neg hk, if_neg hk]
        rfl
  | kn op k r ih =>
    intro hwf m
    cases op with
    | none => rfl
    | some o =>
      simp only [wfNode, Bool.and_eq_true, Bool.not_eq_true'] at hwf
      simp only [traverseFilters, collectEntries]
      rw [if_neg (by rw [hwf.1]; simp)]
      exact ih hwf.2 m
  | nv op l v ih =>
    intro hwf m
    cases op with
    | none => rfl
    | some o =>
      simp only [wfNode] at hwf
      simp only [traverseFilters, collectEntries]
      exact ih hwf m
  | nn op l r ihl ihr =>
    intro hwf m
    cases op with
    | none => rfl
    | some o =>
      simp only [wfNode, Bool.and_eq_true] at hwf
      simp only [traverseFilters, collectEntries]
      rw [ihl hwf.1 m, ihr hwf.2, foldPushEntries_append]

/-! ### The sanitizer, the policy-id accessor and the filter-fragment rule -/

theorem any_not_safe_eq_not_all (l : List Char) :
    (l.any fun c => !safeChar c) = !l.all safeChar := by
  induction l with
  | nil => rfl
  | cons c l ih => simp [List.any_cons, List.all_cons, ih, Bool.not_and]

theorem quoted_ne_self (s : String) : "\"" ++ s ++ "\"" ≠ s := by
  intro heq
  have hl := congrArg String.length heq
  rw [String.length_append, String.length_append] at hl
  have h1 : ("\"" : String).length = 1 := rfl
  rw [h1] at hl
  omega

/-- C8: `sanitizeSearchValue` returns its input unchanged exactly when every
character of the input belongs to the safe set (ASCII letters, digits and the
punctuation of the safe list); otherwise it returns the input wrapped in one
pair of double quotes with no internal escaping.  In particular
`sanitize "hello world"` is quoted and `sanitize "abc123"` unchanged. -/
theorem c8_sanitize_safe_set :
    (∀ s : String,
      (sanitizeSearchValue s = s ↔ s.data.all safeChar = true)
      ∧ (s.data.all safeChar = false → sanitizeSearchValue s = "\"" ++ s ++ "\""))
    ∧ sanitizeSearchValue "hello world" = "\"hello world\""
    ∧ sanitizeSearchValue "abc123" = "abc123" := by
  refine ⟨fun s => ?_, by decide, by decide⟩
  cases h : s.data.all safeChar with
  | true =>
    have hs : sanitizeSearchValue s = s := by
      rw [sanitizeSearchValue, if_neg (by rw [any_not_safe_eq_not_all, h]; simp)]
    exact ⟨⟨fun _ => rfl, fun _ => hs⟩, fun hf => Bool.noConfusion hf⟩
  | false =>
    have hs : sanitizeSearchValue s = "\"" ++ s ++ "\"" := by
      rw [sanitizeSearchValue, if_pos (by rw [any_not_safe_eq_not_all, h]; simp)]
    exact ⟨⟨fun heq => absurd (hs.symm.trans heq) (quoted_ne_self s),
      fun ht => Bool.noConfusion ht⟩, fun _ => hs⟩

/-- C8 witness: evaluated on the concrete unsafe input `a!b`. -/
theorem c8_sanitize_safe_set_witness :
    sanitizeSearchValue "a!b" = "\"" ++ "a!b" ++ "\"" :=
  (c8_sanitize_safe_set.1 "a!b").2 (by decide)

theorem splitOnCharAux_ne_nil (sep : Char) :
    ∀ (l acc : List Char), splitOnCharAux sep l acc ≠ [] := by
  intro l
  induction l with
  | nil => intro acc h; exact List.noConfusion h
  | cons c rest ih =>
    intro acc
    by_cases hc : (c == sep) = true
    · rw [splitOnCharAux, if_pos hc]
      exact fun h => List.noConfusion h
    · rw [splitOnCharAux, if_neg hc]
      exact ih (c :: acc)

theorem splitOnCharAux_head (sep : Char) :
    ∀ (l acc : List Char),
      (splitOnCharAux sep l acc).headD [] =
        acc.reverse ++ l.takeWhile fun c => !(c == sep) := by
  intro l
  induction l with
  | nil => intro acc; simp [splitOnCharAux, List.takeWhile]
  | cons c rest ih =>
    intro acc
    by_cases hc : (c == sep) = true
    · rw [splitOnCharAux, if_pos hc]
      simp only [List.headD_cons, List.takeWhile_cons, hc, Bool.not_true]
      simp
    · rw [splitOnCharAux, if_neg hc]
      rw [ih (c :: acc)]
      simp only [List.takeWhile_cons, List.reverse_cons]
      rw [Bool.not_eq_true] at hc
      rw [hc]
      simp [List.append_assoc]

theorem splitOnChar_head (sep : Char) (s : String) :
    (splitOnChar sep s).headD "" = String.mk (s.data.takeWhile fun c => !(c == sep)) := by
  rw [splitOnChar]
  cases haux : splitOnCharAux sep s.data [] with
  | nil => exact absurd haux (splitOnCharAux_ne_nil sep s.data [])
  | cons a t =>
    have hh := splitOnCharAux_head sep s.data []
    rw [haux] at hh
    simp only [List.headD_cons, List.reverse_nil, List.nil_append] at hh
    simp only [List.map_cons, List.headD_cons]
    rw [hh]

/-- C10: `getPolicyIDFromSearchQuery` returns nothing when the policyID field
is absent or empty, and otherwise exactly the substring of the policyID
before its first comma (the whole policyID when it contains no comma); the
input query is left unchanged (the embedding is a pure function of it). -/
theorem c10_policy_id :
    ∀ q : SearchQueryJSON,
      getPolicyIDFromSearchQuery q =
        match q.policyID with
        | none => none
        | some p => if p = "" then none else some (beforeFirstComma p) := by
  intro q
  cases hq : q.policyID with
  | none => simp [getPolicyIDFromSearchQuery, hq]
  | some p =>
    simp only [getPolicyIDFromSearchQuery, hq]
    by_cases hp : p = ""
    · rw [if_pos (by simp [hp]), if_pos hp]
    · rw [if_neg (by simp [hp]), if_neg hp, splitOnChar_head]
      rfl

theorem bfvs_aux_nonkeyword (name : String) (h : name ≠ "keyword") :
    ∀ (l : List QueryFilter) (prev : Option Op),
      buildFilterValuesStringAux name "," prev l = specClauseRender name prev l := by
  intro l
  induction l with
  | nil => intro prev; rfl
  | cons qf rest ih =>
    intro prev
    simp only [buildFilterValuesStringAux, specClauseRender]
    rw [ih (some qf.operator)]
    by_cases hm : mergeWithPrev prev qf.operator = true
    · rw [if_pos hm, if_pos hm]
    · rw [if_neg hm, if_neg hm,
        if_neg (by simp [beq_eq_false_iff_ne.mpr h])]

theorem bfvs_aux_keyword :
    ∀ (l : List QueryFilter) (prev : Option Op),
      buildFilterValuesStringAux "keyword" " " prev l = specKeywordRender l := by
  intro l
  induction l with
  | nil => intro prev; rfl
  | cons qf rest ih =>
    intro prev
    simp only [buildFilterValuesStringAux, specKeywordRender]
    rw [ih (some qf.operator)]
    by_cases hm : mergeWithPrev prev qf.operator = true
    · rw [if_pos hm, String.append_assoc]
    · rw [if_neg hm, if_pos (by simp), String.append_assoc]

/-- C3 counterexample: the merge rule as claimed fails on the code.  The
merchant fragment for `[{eq,a},{eq,b}]` is `" merchant:a,b"` — every clause
carries a leading space, so it is not the bare string `merchant:a,b` — and a
single keyword entry with operator `gt` is rendered as `" a"`, with no
`keyword>a` clause, although the merge condition does not hold for it. -/
theorem c3_merge_rule_cex :
    buildFilterValuesString "merchant" [⟨Op.eq, "a"⟩, ⟨Op.eq, "b"⟩] ≠ "merchant:a,b"
    ∧ buildFilterValuesString "keyword" [⟨Op.gt, "a"⟩] = " a"
    ∧ buildFilterValuesString "keyword" [⟨Op.gt, "a"⟩] ≠ " keyword>a" := by
  refine ⟨by decide, by decide, by decide⟩

/-- C3 amended: for every filter key other than keyword,
`buildFilterValuesString` merges an entry into the preceding clause
(appending only the comma delimiter and the sanitized value) exactly when the
entry is not the first and the current and preceding operators are both `eq`
or both `neq`, and otherwise starts a new `key op value` clause with a
leading space (so every fragment begins with a space); for the keyword key
every entry appends only the space delimiter and its sanitized value, with no
key or operator token.  The merchant examples render with the leading space:
`" merchant:a,b"` and `" merchant:a merchant>5"`. -/
theorem c3_merge_rule_amended :
    (∀ (name : String) (l : List QueryFilter), name ≠ "keyword" →
      buildFilterValuesString name l = specClauseRender name none l)
    ∧ (∀ l : List QueryFilter, buildFilterValuesString "keyword" l = specKeywordRender l)
    ∧ buildFilterValuesString "merchant" [⟨Op.eq, "a"⟩, ⟨Op.eq, "b"⟩] = " merchant:a,b"
    ∧ buildFilterValuesString "merchant" [⟨Op.eq, "a"⟩, ⟨Op.gt, "5"⟩]
        = " merchant:a merchant>5" := by
  refine ⟨fun name l h => ?_, fun l => ?_, by decide, by decide⟩
  · rw [buildFilterValuesString, if_neg (by simp [beq_eq_false_iff_ne.mpr h])]
    exact bfvs_aux_nonkeyword name h l none
  · rw [buildFilterValuesString, if_pos (by simp)]
    exact bfvs_aux_keyword l none

/-- C3 witness: the amended merge rule evaluated at a concrete non-keyword
key. -/
theorem c3_merge_rule_amended_witness :
    buildFilterValuesString "merchant" [⟨Op.eq, "x"⟩, ⟨Op.neq, "y"⟩]
      = specClauseRender "merchant" none [⟨Op.eq, "x"⟩, ⟨Op.neq, "y"⟩] :=
  c3_merge_rule_amended.1 "merchant" [⟨Op.eq, "x"⟩, ⟨Op.neq, "y"⟩] (by decide)

/-! ### The full-query serializer -/

theorem filterMap_isSome_map (ks : List String) (m : String → Option (List QueryFilter))
    (g : String → List QueryFilter → String) :
    (ks.filterMap fun k => (m k).map (g k)) =
      (ks.filter fun k => (m k).isSome).map fun k => g k ((m k).getD []) := by
  induction ks with
  | nil => rfl
  | cons k ks ih =>
    cases h : m k with
    | none => simp [List.filterMap_cons, List.filter_cons, h, ih]
    | some l => simp [List.filterMap_cons, List.filter_cons, h, ih]

theorem fragment_head_space (k : String) (a : QueryFilter) (l : List QueryFilter) :
    (buildFilterValuesString k (a :: l)).data.head? = some ' ' := by
  have hsp : (" " : String).data = [' '] := rfl
  by_cases hk : (k == "keyword") = true
  · rw [buildFilterValuesString, if_pos hk]
    simp only [buildFilterValuesStringAux, mergeWithPrev]
    rw [if_neg (by simp), if_pos hk]
    simp [String.data_append, hsp]
  · rw [buildFilterValuesString, if_neg hk]
    simp only [buildFilterValuesStringAux, mergeWithPrev]
    rw [if_neg (by simp), if_neg hk]
    simp [String.data_append, hsp]

/-- C4 counterexample: the serialized string of a query with a merchant filter
contains a run of two consecutive spaces (the fragment itself starts with a
space and the parts are then joined with another space), contradicting the
claimed single-space joining; the claim's trimming also does not happen. -/
theorem c4_serializer_cex :
    hasDoubleSpace (buildSearchQueryString
      { type := "expense", status := "all", sortBy := "date", sortOrder := "desc",
        flatFilters := [("merchant", [⟨Op.eq, "a"⟩])] }) = true
    ∧ buildSearchQueryString
      { type := "expense", status := "all", sortBy := "date", sortOrder := "desc",
        flatFilters := [("merchant", [⟨Op.eq, "a"⟩])] }
      = "type:expense status:all sortBy:date sortOrder:desc  merchant:a" := by
  refine ⟨by decide, by decide⟩

/-- C4 amended: `buildSearchQueryString` emits one `key:value` clause per
truthy root field in the fixed root-key enumeration order (policyID first,
then type, status, sortBy, sortOrder), followed by the fragment of each
present filter key in the fixed filter-key enumeration order, all joined with
one space between consecutive parts; since every nonempty filter fragment
itself begins with a space, two spaces precede each filter clause, and no
trimming is performed. -/
theorem c4_serializer_amended :
    (∀ q : SearchQueryJSON,
      buildSearchQueryString q =
        String.intercalate " " (specRootClauses q ++ specFilterFragments q))
    ∧ (∀ (k : String) (a : QueryFilter) (l : List QueryFilter),
        (buildFilterValuesString k (a :: l)).data.head? = some ' ') := by
  refine ⟨fun q => ?_, fragment_head_space⟩
  have hfrag : (filterKeysList.filterMap fun k =>
      (lookupFilters q.flatFilters k).map fun l => buildFilterValuesString k l)
      = specFilterFragments q := by
    rw [specFilterFragments, ← filterMap_isSome_map]
  rw [buildSearchQueryString, hfrag]
  refine congrArg (fun parts => String.intercalate " " (parts ++ specFilterFragments q)) ?_
  simp only [rootKeysList, List.filterMap_cons, rootFieldValue]
  simp only [specRootClauses]
  cases hq : q.policyID with
  | none =>
    simp only [reduceIte]
    by_cases h1 : (q.type == "") = true <;> by_cases h2 : (q.status == "") = true <;>
      by_cases h3 : (q.sortBy == "") = true <;> by_cases h4 : (q.sortOrder == "") = true <;>
      simp_all
  | some p =>
    simp only [reduceIte]
    by_cases h0 : (p == "") = true <;>
      by_cases h1 : (q.type == "") = true <;> by_cases h2 : (q.status == "") = true <;>
      by_cases h3 : (q.sortBy == "") = true <;> by_cases h4 : (q.sortOrder == "") = true <;>
      simp_all

/-! ### The form-to-query range fragments -/

/-- C5 counterexample: with only the greater-than amount bound set, both date
bounds absent, the query string contains a double space — the empty date
fragment still occupies a slot of the space-join, leaving a trace before the
amount fragment. -/
theorem c5_range_fragments_cex :
    buildQueryStringFromFilterFormValues [("greaterThan", FormValue.str "5")]
      = "sortBy:date sortOrder:desc  amount>5"
    ∧ hasDoubleSpace
        (buildQueryStringFromFilterFormValues [("greaterThan", FormValue.str "5")]) = true := by
  refine ⟨by decide, by decide⟩

/-- C5 amended: the date fragment is `date<before` then `date>after` and the
amount fragment `amount>greaterThan` then `amount<lessThan`, space-joined
inside the fragment when both bounds are truthy, an absent or empty bound
contributing nothing to the fragment; both fragments are always appended as
the two final parts of the space-join of the query parts (the result being
trimmed), so a fragment whose bounds are all absent is empty but still
occupies a join slot: it leaves an extra space when a later part is nonempty,
and only trailing whitespace (removed by the trim) otherwise. -/
theorem c5_range_fragments_amended :
    (∀ form : FilterForm,
      buildDateFilterQuery form =
        specDateFragment (truthyFormString form "dateBefore") (truthyFormString form "dateAfter"))
    ∧ (∀ form : FilterForm,
      buildAmountFilterQuery form =
        specAmountFragment (truthyFormString form "greaterThan")
          (truthyFormString form "lessThan"))
    ∧ (∀ form : FilterForm,
      buildQueryStringFromFilterFormValues form =
        jsTrim (String.intercalate " "
          ((["sortBy:date", "sortOrder:desc"]
            ++ (if truthyForm (lookupForm form "type") then
                  ["type:" ++ sanitizeSearchValue (formString (lookupForm form "type"))] else [])
            ++ (if truthyForm (lookupForm form "status") then
                  ["status:" ++ sanitizeSearchValue (formString (lookupForm form "status"))] else [])
            ++ (if truthyForm (lookupForm form "policyID") then
                  ["policyID:" ++ sanitizeSearchValue (formString (lookupForm form "policyID"))] else [])
            ++ (form.filter fun e =>
                  !(e.1 == "type" || e.1 == "status" || e.1 == "policyID")).filterMap
                mapFilterFormEntry)
            ++ [buildDateFilterQuery form, buildAmountFilterQuery form]))) := by
  refine ⟨fun form => ?_, fun form => ?_, fun form => rfl⟩
  · rw [buildDateFilterQuery]
    have hds : (" " : String) ++ ("date>" ++ formString (lookupForm form "dateAfter"))
        = " date>" ++ formString (lookupForm form "dateAfter") := by
      rw [← String.append_assoc]
      rfl
    by_cases hb : truthyForm (lookupForm form "dateBefore") = true <;>
      by_cases ha : truthyForm (lookupForm form "dateAfter") = true <;>
      simp [truthyFormString, hb, ha, specDateFragment, String.append_assoc, hds]
  · rw [buildAmountFilterQuery]
    have has : (" " : String) ++ ("amount<" ++ formString (lookupForm form "lessThan"))
        = " amount<" ++ formString (lookupForm form "lessThan") := by
      rw [← String.append_assoc]
      rfl
    by_cases hg : truthyForm (lookupForm form "greaterThan") = true <;>
      by_cases hl : truthyForm (lookupForm form "lessThan") = true <;>
      simp [truthyFormString, hg, hl, specAmountFragment, String.append_assoc, has]

/-! ### The hasher: frame effect and reorder stability -/

/-- C2 counterexample: `getQueryHash` does not leave its argument unchanged —
the in-place sort reorders the merchant sequence, so after the call the
per-key order of `flatFilters` differs from what it was before. -/
theorem c2_frame_mutation_cex :
    (getQueryHashM
      { type := "expense", status := "all", sortBy := "date", sortOrder := "desc",
        flatFilters := [("merchant", [⟨Op.eq, "b"⟩, ⟨Op.eq, "a"⟩])] }).2.flatFilters
      ≠ [("merchant", [⟨Op.eq, "b"⟩, ⟨Op.eq, "a"⟩])]
    ∧ (getQueryHashM
      { type := "expense", status := "all", sortBy := "date", sortOrder := "desc",
        flatFilters := [("merchant", [⟨Op.eq, "b"⟩, ⟨Op.eq, "a"⟩])] }).2.flatFilters
      = [("merchant", [⟨Op.eq, "a"⟩, ⟨Op.eq, "b"⟩])] := by
  refine ⟨by decide, by decide⟩

/-- C2 amended: `getQueryHash` leaves every field of its argument unchanged
except `flatFilters`, whose per-key sequences it re-sorts in place into the
stable value-sort; root fields, the key set and order, and each key's
multiset of entries are preserved, and the argument is left fully unchanged
exactly when each sequence was already value-sorted.  (The other exported
operations are embedded as pure functions of their inputs;
`buildSearchQueryJSON` applies this same in-place sort to the freshly parsed
object before returning it.) -/
theorem c2_frame_amended :
    ∀ q : SearchQueryJSON, (q.flatFilters.map (·.1)).Nodup →
      (getQueryHashM q).2 =
        { q with flatFilters := q.flatFilters.map fun e => (e.1, sortQueryFilters e.2) } := by
  intro q hnd
  have h2 : (getQueryHashRun q).2 = q.flatFilters.map fun e => (e.1, sortQueryFilters e.2) := by
    rw [getQueryHashRun, getQueryHashRun_snd_eq]
    exact foldl_updateSort_eq_map _ _ (stableSortLe_perm _ _) hnd
  simp only [getQueryHashM]
  rw [h2]

/-- C2 witness: the amended frame statement evaluated at a concrete query. -/
theorem c2_frame_amended_witness :
    (getQueryHashM
      { type := "expense", status := "all", sortBy := "date", sortOrder := "desc",
        flatFilters := [("merchant", [⟨Op.eq, "b"⟩, ⟨Op.eq, "a"⟩])] }).2 =
      { type := "expense", status := "all", sortBy := "date", sortOrder := "desc",
        flatFilters := [("merchant", [⟨Op.eq, "b"⟩, ⟨Op.eq, "a"⟩])].map
          fun e => (e.1, sortQueryFilters e.2) } :=
  c2_frame_amended _ (by decide)

/-- C1 counterexample: two queries with the same root fields and identical
multisets of (operator, value) pairs for the single key merchant — the
sequences are permutations of each other — hash differently: the stable sort
orders only by value, so the two equal-valued entries keep their input order
and serialize as different canonical strings. -/
theorem c1_hash_reorder_cex :
    ([⟨Op.eq, "a"⟩, ⟨Op.gt, "a"⟩] : List QueryFilter).Perm [⟨Op.gt, "a"⟩, ⟨Op.eq, "a"⟩]
    ∧ getQueryHash
        { type := "expense", status := "all", sortBy := "date", sortOrder := "desc",
          flatFilters := [("merchant", [⟨Op.eq, "a"⟩, ⟨Op.gt, "a"⟩])] }
      ≠ getQueryHash
        { type := "expense", status := "all", sortBy := "date", sortOrder := "desc",
          flatFilters := [("merchant", [⟨Op.gt, "a"⟩, ⟨Op.eq, "a"⟩])] } := by
  refine ⟨by decide, by decide⟩

/-- C1 amended: two queries with the same root fields, the same key sets
(without duplicate keys) and, for every key, per-key sequences that are
permutations of each other — identical multisets of (operator, value) pairs —
hash identically, provided the values within each key are pairwise distinct
(so that the value-only stable sort determines a unique order). -/
theorem c1_hash_reorder_amended :
    ∀ (q1 q2 : SearchQueryJSON),
      q1.type = q2.type → q1.status = q2.status → q1.sortBy = q2.sortBy →
      q1.sortOrder = q2.sortOrder → q1.policyID = q2.policyID →
      (q1.flatFilters.map (·.1)).Nodup → (q2.flatFilters.map (·.1)).Nodup →
      (q1.flatFilters.map (·.1)).Perm (q2.flatFilters.map (·.1)) →
      (∀ k ∈ q1.flatFilters.map (·.1),
        ((lookupFilters q1.flatFilters k).getD []).Perm
            ((lookupFilters q2.flatFilters k).getD [])
        ∧ (((lookupFilters q1.flatFilters k).getD []).map (·.value)).Nodup) →
      getQueryHash q1 = getQueryHash q2 := by
  intro q1 q2 ht hs hb ho hp hnd1 hnd2 hkeys hvals
  have hroot : rootOrderedString q1 = rootOrderedString q2 := by
    rw [rootOrderedString, rootOrderedString, ht, hs, hb, ho, hp]
  have hkeq : sortKeys (q1.flatFilters.map (·.1)) = sortKeys (q2.flatFilters.map (·.1)) := by
    refine sorted_perm_unique (fun a _ b _ h1 h2 => stringLe_antisymm h1 h2) ?_ ?_ ?_
    · exact (stableSortLe_perm _ _).trans (hkeys.trans (stableSortLe_perm _ _).symm)
    · exact stableSortLe_pairwise stringLe_total (fun a b c h1 h2 => stringLe_trans h1 h2) _
    · exact stableSortLe_pairwise stringLe_total (fun a b c h1 h2 => stringLe_trans h1 h2) _
  have hndks1 : (sortKeys (q1.flatFilters.map (·.1))).Nodup :=
    (stableSortLe_perm _ _).nodup_iff.mpr hnd1
  have hndks2 : (sortKeys (q2.flatFilters.map (·.1))).Nodup :=
    (stableSortLe_perm _ _).nodup_iff.mpr hnd2
  have hchunk : ∀ acc k, k ∈ sortKeys (q2.flatFilters.map (·.1)) →
      hashFragmentFold q1.flatFilters acc k = hashFragmentFold q2.flatFilters acc k := by
    intro acc k hk
    have hk1 : k ∈ q1.flatFilters.map (·.1) := by
      rw [← hkeq] at hk
      exact (stableSortLe_perm _ _).mem_iff.mp hk
    obtain ⟨hpk, hnv⟩ := hvals k hk1
    have hsort : sortQueryFilters ((lookupFilters q1.flatFilters k).getD [])
        = sortQueryFilters ((lookupFilters q2.flatFilters k).getD []) := by
      have hanti : ∀ a ∈ sortQueryFilters ((lookupFilters q1.flatFilters k).getD []),
          ∀ b ∈ sortQueryFilters ((lookupFilters q1.flatFilters k).getD []),
          queryFilterLe a b = true → queryFilterLe b a = true → a = b := by
        intro a hA b hB hab hba
        have hav : a.value = b.value := queryFilterLe_value_eq hab hba
        have ha1 : a ∈ (lookupFilters q1.flatFilters k).getD [] :=
          (stableSortLe_perm _ _).mem_iff.mp hA
        have hb1 : b ∈ (lookupFilters q1.flatFilters k).getD [] :=
          (stableSortLe_perm _ _).mem_iff.mp hB
        exact List.inj_on_of_nodup_map hnv ha1 hb1 hav
      exact @sorted_perm_unique QueryFilter queryFilterLe _ _ hanti
        ((stableSortLe_perm _ _).trans (hpk.trans (stableSortLe_perm _ _).symm))
        (stableSortLe_pairwise queryFilterLe_total
          (fun a b c h1 h2 => queryFilterLe_trans h1 h2) _)
        (stableSortLe_pairwise queryFilterLe_total
          (fun a b c h1 h2 => queryFilterLe_trans h1 h2) _)
    rw [hashFragmentFold, hashFragmentFold, hsort]
  simp only [getQueryHash, getQueryHashM]
  refine congrArg (fun s => hashText s (2 ^ 32)) ?_
  rw [getQueryHashRun, getQueryHashRun,
    getQueryHashRun_fst_eq _ hndks1, getQueryHashRun_fst_eq _ hndks2, hroot, hkeq]
  exact foldl_congr_mem _ _ fun acc a ha => hchunk acc a ha

/-- C1 witness: the amended reorder-stability statement evaluated at two
concrete queries with reordered keys and reordered distinct-valued entries. -/
theorem c1_hash_reorder_amended_witness :
    getQueryHash
      { type := "expense", status := "all", sortBy := "date", sortOrder := "desc",
        flatFilters := [("merchant", [⟨Op.eq, "b"⟩, ⟨Op.eq, "a"⟩]),
                        ("category", [⟨Op.eq, "x"⟩])] }
      = getQueryHash
      { type := "expense", status := "all", sortBy := "date", sortOrder := "desc",
        flatFilters := [("category", [⟨Op.eq, "x"⟩]),
                        ("merchant", [⟨Op.eq, "a"⟩, ⟨Op.eq, "b"⟩])] } :=
  c1_hash_reorder_amended _ _ rfl rfl rfl rfl rfl (by decide) (by decide) (by decide) (by decide)

/-! ### The flattener theorem -/

/-- C9: the flattening traversal of `getFilters` equals, on well-formed ASTs
(no recognized filter key carrying a node-shaped right side, the data-model
invariant), the grouping of the pre-order entry collection: entries are
collected left subtree first, then a non-list right subtree, then the current
node's own entries — one per right-hand element, a scalar yielding one entry
and a list one per element in list order — while unrecognized keys and
operator-less nodes contribute nothing; keys appear in first-encounter order
and each key's sequence preserves encounter order.  An absent root AST yields
an empty QueryFilters. -/
theorem c9_flattener :
    getFilters none = []
    ∧ (∀ a : ASTNode, wfNode a = true →
        getFilters (some a) = groupEntries (collectEntries a)) := by
  refine ⟨rfl, fun a hwf => ?_⟩
  show traverseFilters [] a = groupEntries (collectEntries a)
  rw [traverseFilters_eq_foldPush a hwf, foldPushEntries_group]

/-- C9 witness: the flattening characterization evaluated at a concrete
well-formed AST with a compound node, a scalar right side and a list right
side. -/
theorem c9_flattener_witness :
    getFilters (some (ASTNode.nn (some Op.andOp)
        (ASTNode.kv (some Op.eq) "merchant" (RightValue.str "x"))
        (ASTNode.kv (some Op.gt) "date" (RightValue.list ["d1", "d2"]))))
      = groupEntries (collectEntries (ASTNode.nn (some Op.andOp)
        (ASTNode.kv (some Op.eq) "merchant" (RightValue.str "x"))
        (ASTNode.kv (some Op.gt) "date" (RightValue.list ["d1", "d2"])))) :=
  c9_flattener.2 _ (by decide)

/-! ### The parser facade -/

theorem pushEntry_map_fst (m : QueryFilters) (k : String) (qf : QueryFilter) :
    (pushEntry m k qf).map (·.1) =
      if k ∈ m.map (·.1) then m.map (·.1) else m.map (·.1) ++ [k] := by
  induction m with
  | nil => simp [pushEntry]
  | cons e rest ih =>
    obtain ⟨k', l⟩ := e
    simp only [pushEntry, List.map_cons]
    by_cases hk : (k' == k) = true
    · have : k' = k := by simpa using hk
      subst this
      rw [if_pos hk]
      simp
    · rw [if_neg hk]
      have hne : k ≠ k' := fun hh => hk (by simp [hh])
      simp only [List.map_cons, ih]
      by_cases hmem : k ∈ rest.map (·.1)
      · rw [if_pos hmem, if_pos (by simp [hmem])]
      · rw [if_neg hmem, if_neg (by simp [hne, hmem])]
        simp

theorem pushEntry_keys_nodup {m : QueryFilters} (k : String) (qf : QueryFilter)
    (h : (m.map (·.1)).Nodup) : ((pushEntry m k qf).map (·.1)).Nodup := by
  rw [pushEntry_map_fst]
  by_cases hmem : k ∈ m.map (·.1)
  · rw [if_pos hmem]; exact h
  · rw [if_neg hmem]
    simp [List.nodup_append, h, hmem]

theorem foldPushEntries_keys_nodup :
    ∀ (l : List (String × QueryFilter)) (m : QueryFilters),
      (m.map (·.1)).Nodup → ((foldPushEntries m l).map (·.1)).Nodup := by
  intro l
  induction l with
  | nil => intro m h; exact h
  | cons e l ih =>
    intro m h
    exact ih _ (pushEntry_keys_nodup e.1 e.2 h)

theorem traverseFilters_keys_nodup :
    ∀ (a : ASTNode) (m : QueryFilters),
      (m.map (·.1)).Nodup → ((traverseFilters m a).map (·.1)).Nodup := by
  intro a
  induction a with
  | kv op k v =>
    intro m h
    cases op with
    | none => exact h
    | some o =>
      simp only [traverseFilters]
      by_cases hk : filterKeysList.contains k = true
      · rw [if_pos hk, pushRightValue_eq_foldPush]
        exact foldPushEntries_keys_nodup _ _ h
      · rw [if_neg hk]; exact h
  | kn op k r ih =>
    intro m h
    cases op with
    | none => exact h
    | some o =>
      simp only [traverseFilters]
      by_cases hk : filterKeysList.contains k = true
      · rw [if_pos hk]
        exact pushEntry_keys_nodup _ _ (ih m h)
      · rw [if_neg hk]
        exact ih m h
  | nv op l v ih =>
    intro m h
    cases op with
    | none => exact h
    | some o => exact ih m h
  | nn op l r ihl ihr =>
    intro m h
    cases op with
    | none => exact h
    | some o => exact ihr _ (ihl m h)

theorem getFilters_keys_nodup (o : Option ASTNode) : ((getFilters o).map (·.1)).Nodup := by
  cases o with
  | none => exact List.nodup_nil
  | some a => exact traverseFilters_keys_nodup a [] List.nodup_nil

/-- C6: for every parser and every input string, when the parser fails the
facade returns no result (and does not throw — the embedding is total); when
the parser succeeds the facade returns a completed object whose root fields
and AST are the parser's, whose `inputQuery` is the original string, whose
`flatFilters` is the flattening of the AST (with each key's sequence left in
the value-sorted order produced by the hash computation's in-place sort — a
permutation of the flattened sequence, per-key multisets identical), and
whose `hash` is the computed hash of the completed object. -/
theorem c6_parser_facade :
    ∀ (parse : String → Option ParsedQuery) (query : String),
      (parse query = none → buildSearchQueryJSON parse query = none)
      ∧ (∀ r : ParsedQuery, parse query = some r →
          ∃ res : SearchQueryJSON, buildSearchQueryJSON parse query = some res
            ∧ res.inputQuery = query
            ∧ res.type = r.type ∧ res.status = r.status
            ∧ res.sortBy = r.sortBy ∧ res.sortOrder = r.sortOrder
            ∧ res.policyID = r.policyID ∧ res.filters = r.filters
            ∧ res.flatFilters =
                (getFilters r.filters).map (fun e => (e.1, sortQueryFilters e.2))
            ∧ (∀ k, ((lookupFilters res.flatFilters k).getD []).Perm
                ((lookupFilters (getFilters r.filters) k).getD []))
            ∧ res.hash = getQueryHash
                { type := r.type, status := r.status, sortBy := r.sortBy,
                  sortOrder := r.sortOrder, policyID := r.policyID, filters := r.filters,
                  flatFilters := getFilters r.filters, inputQuery := query, hash := 0 }) := by
  intro parse query
  constructor
  · intro h
    rw [buildSearchQueryJSON, h]
  · intro r hr
    set q1 : SearchQueryJSON :=
      { type := r.type, status := r.status, sortBy := r.sortBy,
        sortOrder := r.sortOrder, policyID := r.policyID, filters := r.filters,
        flatFilters := getFilters r.filters, inputQuery := query, hash := 0 } with hq1
    have hflat : (getQueryHashM q1).2.flatFilters =
        (getFilters r.filters).map (fun e => (e.1, sortQueryFilters e.2)) := by
      show (getQueryHashRun q1).2 = _
      rw [getQueryHashRun, getQueryHashRun_snd_eq]
      have : q1.flatFilters = getFilters r.filters := rfl
      rw [this]
      exact foldl_updateSort_eq_map _ _ (stableSortLe_perm _ _) (getFilters_keys_nodup _)
    refine ⟨{ (getQueryHashM q1).2 with hash := (getQueryHashM q1).1 },
      by rw [buildSearchQueryJSON, hr], rfl, rfl, rfl, rfl, rfl, rfl, rfl, ?_, ?_, rfl⟩
    · exact hflat
    · intro k
      show ((lookupFilters ((getQueryHashM q1).2.flatFilters) k).getD []).Perm _
      rw [hflat, lookup_map_values]
      cases h : lookupFilters (getFilters r.filters) k with
      | none => simp
      | some l =>
        simp only [Option.map_some, Option.getD_some]
        exact stableSortLe_perm _ _

/-- C6 witness: the facade evaluated with a concrete failing parser and a
concrete succeeding parser. -/
theorem c6_parser_facade_witness :
    buildSearchQueryJSON (fun _ => none) "bad" = none
    ∧ ∃ res : SearchQueryJSON,
        buildSearchQueryJSON
          (fun _ => some
            { type := "expense", status := "all", sortBy := "date", sortOrder := "desc" })
          "type:expense" = some res
        ∧ res.inputQuery = "type:expense"
        ∧ res.type = "expense" ∧ res.status = "all"
        ∧ res.sortBy = "date" ∧ res.sortOrder = "desc"
        ∧ res.policyID = none ∧ res.filters = none
        ∧ res.flatFilters = (getFilters none).map (fun e => (e.1, sortQueryFilters e.2))
        ∧ (∀ k, ((lookupFilters res.flatFilters k).getD []).Perm
            ((lookupFilters (getFilters none) k).getD []))
        ∧ res.hash = getQueryHash
            { type := "expense", status := "all", sortBy := "date", sortOrder := "desc",
              policyID := none, filters := none, flatFilters := getFilters none,
              inputQuery := "type:expense", hash := 0 } :=
  ⟨(c6_parser_facade (fun _ => none) "bad").1 rfl,
   (c6_parser_facade
     (fun _ => some
       { type := "expense", status := "all", sortBy := "date", sortOrder := "desc" })
     "type:expense").2 _ rfl⟩

/-! ### The standardizer: idempotence on canonical queries -/

theorem map_id_of_forall (f : String → String) :
    ∀ (l : List String), (∀ s ∈ l, f s = s) → l.map f = l := by
  intro l
  induction l with
  | nil => intro _; rfl
  | cons s l ih =>
    intro h
    rw [List.map_cons, h s (List.mem_cons_self s l),
      ih fun x hx => h x (List.mem_cons_of_mem s hx)]

theorem taxExpand_id (taxRates : List (String × List String)) :
    ∀ (l : List String), (∀ s ∈ l, (lookupAssoc taxRates s).isNone = true) →
      taxExpand taxRates l = l := by
  intro l
  induction l with
  | nil => intro _; rfl
  | cons s l ih =>
    intro h
    have hs : lookupAssoc taxRates s = none :=
      Option.isNone_iff_eq_none.mp (h s (List.mem_cons_self s l))
    have ih' := ih fun x hx => h x (List.mem_cons_of_mem s hx)
    simp only [taxExpand] at ih' ⊢
    rw [List.flatMap_cons, hs, ih']
    rfl

theorem cardFilter_nil {cards : List Card} {s : String}
    (h : ∀ c ∈ cards, (c.bank == s) = false) :
    cards.filter (fun c => c.bank == s) = [] :=
  List.filter_eq_nil_iff.mpr fun c hc => by simp [h c hc]

theorem findID_canonical_fix (cards : List Card) (taxRates : List (String × List String))
    (emails : List (String × Nat)) (k : String) (r : RightValue)
    (hc : canonicalValue cards taxRates emails k r = true) :
    findIDFromDisplayValue cards taxRates emails k
        (findIDFromDisplayValue cards taxRates emails k r) =
      findIDFromDisplayValue cards taxRates emails k r := by
  by_cases h1 : (k == "from" || k == "to") = true
  · rw [canonicalValue, if_pos h1] at hc
    cases r with
    | str s =>
      have hlk : lookupAssoc emails s = none := by
        simp only [rightValues, List.all_cons, List.all_nil, Bool.and_true] at hc
        exact Option.isNone_iff_eq_none.mp hc
      simp [findIDFromDisplayValue, h1, resolveEmail, hlk]
    | list l =>
      simp only [rightValues, List.all_eq_true] at hc
      have hl : l.map (resolveEmail emails) = l :=
        map_id_of_forall _ l fun s hs => by
          simp [resolveEmail, Option.isNone_iff_eq_none.mp (hc s hs)]
      simp [findIDFromDisplayValue, h1, hl]
  · by_cases h2 : (k == "taxRate") = true
    · rw [canonicalValue, if_neg h1, if_pos h2] at hc
      cases r with
      | str s =>
        simp only [rightValues, List.all_cons, List.all_nil, Bool.and_true] at hc
        have hexp : taxExpand taxRates [s] = [s] :=
          taxExpand_id taxRates [s] fun x hx => by
            rcases List.mem_singleton.mp hx with rfl
            exact hc
        simp [findIDFromDisplayValue, h1, h2, hexp]
      | list l =>
        simp only [rightValues, List.all_eq_true] at hc
        have hexp : taxExpand taxRates l = l := taxExpand_id taxRates l hc
        simp [findIDFromDisplayValue, h1, h2, hexp]
    · by_cases h3 : (k == "cardID") = true
      · rw [canonicalValue, if_neg h1, if_neg h2, if_pos h3] at hc
        cases r with
        | str s =>
          simp only [rightValues, List.all_cons, List.all_nil, Bool.and_true,
            List.all_eq_true] at hc
          have hfil : cards.filter (fun c => c.bank == s) = [] :=
            cardFilter_nil fun c hcc => by simpa using hc c hcc
          simp [findIDFromDisplayValue, h1, h2, h3, hfil]
        | list l =>
          simp only [rightValues, List.all_eq_true] at hc
          have hfl : l.flatMap (fun b =>
              (cards.filter fun c => c.bank == b).map fun c => toString c.cardID) = [] := by
            refine List.flatMap_eq_nil_iff.mpr fun b hb => ?_
            rw [cardFilter_nil fun c hcc => by simpa using hc b hb c hcc]
            rfl
          simp [findIDFromDisplayValue, h1, h2, h3, hfl]
      · simp [findIDFromDisplayValue, h1, h2, h3]

theorem standardizeNode_idem (cards : List Card) (taxRates : List (String × List String))
    (emails : List (String × Nat)) :
    ∀ a : ASTNode, canonicalNode cards taxRates emails a = true →
      standardizeNode cards taxRates emails (standardizeNode cards taxRates emails a) =
        standardizeNode cards taxRates emails a := by
  intro a
  induction a with
  | kv op k v =>
    intro hc
    cases op with
    | none => rfl
    | some o =>
      simp only [standardizeNode]
      rw [findID_canonical_fix cards taxRates emails k v (by simpa [canonicalNode] using hc)]
  | kn op k r ih =>
    intro hc
    cases op with
    | none => rfl
    | some o =>
      simp only [canonicalNode, Bool.and_eq_true] at hc
      simp only [standardizeNode]
      rw [ih hc.2]
  | nv op l v ih =>
    intro hc
    cases op with
    | none => rfl
    | some o =>
      simp only [canonicalNode] at hc
      simp only [standardizeNode]
      rw [ih hc]
  | nn op l r ihl ihr =>
    intro hc
    cases op with
    | none => rfl
    | some o =>
      simp only [canonicalNode, Bool.and_eq_true] at hc
      simp only [standardizeNode]
      rw [ihl hc.1, ihr hc.2]

/-- C7: for every query whose AST right-hand values are already canonical
identifiers for the given directories (account identifiers for from/to that
resolve to no directory email, card identifiers matching no bank name,
tax-rate identifiers that are no tax-rate name; and no rewritable key with a
node-shaped right side), standardizing twice equals standardizing once. -/
theorem c7_standardize_idempotent :
    ∀ (cards : List Card) (taxRates : List (String × List String))
      (emails : List (String × Nat)) (q : SearchQueryJSON),
      canonicalQuery cards taxRates emails q = true →
      standardizeQueryJSON cards taxRates emails
          (standardizeQueryJSON cards taxRates emails q) =
        standardizeQueryJSON cards taxRates emails q := by
  intro cards taxRates emails q hc
  cases hq : q.filters with
  | none =>
    simp [standardizeQueryJSON, hq]
  | some a =>
    have hca : canonicalNode cards taxRates emails a = true := by
      rw [canonicalQuery, hq] at hc
      exact hc
    simp [standardizeQueryJSON, hq, standardizeNode_idem cards taxRates emails a hca]

/-- C7 witness: idempotence evaluated at a concrete query with canonical
from/card/tax-rate values and concrete directories. -/
theorem c7_standardize_idempotent_witness :
    standardizeQueryJSON [⟨17, "chase"⟩] [("vat", ["id1"])] [("a@b.c", 7)]
        (standardizeQueryJSON [⟨17, "chase"⟩] [("vat", ["id1"])] [("a@b.c", 7)]
          { type := "expense", status := "all", sortBy := "date", sortOrder := "desc",
            filters := some (ASTNode.nn (some Op.andOp)
              (ASTNode.kv (some Op.eq) "from" (RightValue.str "7"))
              (ASTNode.kv (some Op.eq) "taxRate" (RightValue.list ["id1"]))) })
      = standardizeQueryJSON [⟨17, "chase"⟩] [("vat", ["id1"])] [("a@b.c", 7)]
          { type := "expense", status := "all", sortBy := "date", sortOrder := "desc",
            filters := some (ASTNode.nn (some Op.andOp)
              (ASTNode.kv (some Op.eq) "from" (RightValue.str "7"))
              (ASTNode.kv (some Op.eq) "taxRate" (RightValue.list ["id1"]))) } :=
  c7_standardize_idempotent _ _ _ _ (by decide)
